import Mathlib

/-!
Verification of the section-extraction and pagination core of
`src/MediaAnalyzer/MediaAnalyzer.py` (cog `MediaAnalyzer`).

Python strings are modelled as lists of Unicode code points (`List Char`),
matching Python's `str` semantics (`len` = code-point count, slicing by
code-point index).  The pure computational core of the module —
`embed_size`, `safe_line_split`, `build_embeds_for_section`, `chunk_embeds`,
`build_pages`, and the regex-based section extraction inside
`fetch_webpage` — is transcribed below.  Stateful Python loops become
explicit state-passing folds.
-/

/-- A Python `str`: a sequence of Unicode code points. -/
abbrev PyStr := List Char

/-- Convert a Lean string literal to the Python-string model. -/
def pystr (s : String) : PyStr := s.data

/-- Python whitespace (the `\s` class of `re` on `str`, and the default
`str.strip`/`str.split` whitespace): ASCII whitespace, the C1 controls
Python treats as space, and the Unicode space separators. -/
def pyIsSpace (c : Char) : Bool :=
  c = ' ' || c = '\t' || c = '\n' || c = '\r' ||
  c.toNat = 0x0b || c.toNat = 0x0c ||
  (0x1c ≤ c.toNat && c.toNat ≤ 0x1f) ||
  c.toNat = 0x85 || c.toNat = 0xa0 || c.toNat = 0x1680 ||
  (0x2000 ≤ c.toNat && c.toNat ≤ 0x200a) ||
  c.toNat = 0x2028 || c.toNat = 0x2029 ||
  c.toNat = 0x202f || c.toNat = 0x205f || c.toNat = 0x3000

/-- Line-break characters recognised by Python's `str.splitlines`. -/
def pyIsLineBreak (c : Char) : Bool :=
  c = '\n' || c = '\r' ||
  c.toNat = 0x0b || c.toNat = 0x0c ||
  c.toNat = 0x1c || c.toNat = 0x1d || c.toNat = 0x1e ||
  c.toNat = 0x85 || c.toNat = 0x2028 || c.toNat = 0x2029

/-- Python `str.strip()`: remove leading and trailing whitespace. -/
def pyStrip (s : PyStr) : PyStr :=
  ((s.dropWhile pyIsSpace).reverse.dropWhile pyIsSpace).reverse

/-- Python `str.rstrip('\r')`: remove trailing carriage returns. -/
def rstripCR (s : PyStr) : PyStr :=
  (s.reverse.dropWhile (· = '\r')).reverse

/-- Python `str.splitlines` (keepends = False): split at line-break
characters, treating `\r\n` as a single break, with no trailing empty
line for a terminal break. -/
def splitlinesGo : PyStr → Nat → List PyStr
  | [], _ => []
  | l, 0 => [l]
  | c :: rest, fuel+1 =>
    if pyIsLineBreak c then
      if c = '\r' && rest.head? = some '\n' then
        [] :: splitlinesGo rest.tail fuel
      else
        [] :: splitlinesGo rest fuel
    else
      match splitlinesGo rest fuel with
      | [] => [[c]]
      | line :: more => (c :: line) :: more

/-- Tail-recursive form of `splitlinesGo` (same function, constant stack):
`out` holds the finished lines in reverse order and `acc` the current
line's characters in reverse order. -/
def splitlinesTR : List PyStr → PyStr → PyStr → Nat → List PyStr
  | out, acc, [], _ => (if acc.isEmpty then out else acc.reverse :: out).reverse
  | out, acc, s, 0 => ((acc.reverse ++ s) :: out).reverse
  | out, acc, c :: rest, fuel+1 =>
    if pyIsLineBreak c then
      if c = '\r' && rest.head? = some '\n' then
        splitlinesTR (acc.reverse :: out) [] rest.tail fuel
      else
        splitlinesTR (acc.reverse :: out) [] rest fuel
    else splitlinesTR out (c :: acc) rest fuel

def splitlinesPy (s : PyStr) : List PyStr := splitlinesTR [] [] s s.length

/-- Helper for relating `splitlinesTR` to `splitlinesGo`: prepend `a` to the
first line of `ls` (or make it the only line when `ls` is empty and `a` is
not). -/
def prependFirst (a : PyStr) : List PyStr → List PyStr
  | [] => if a.isEmpty then [] else [a]
  | l :: ls => (a ++ l) :: ls

/-- The backtick character (U+0060). -/
def btick : Char := Char.ofNat 96

/-- The replacement character `ʼ` (U+02BC, MODIFIER LETTER APOSTROPHE)
used by `content.replace("```", "ʼʼʼ")` (MediaAnalyzer.py line 65). -/
def apostro : Char := Char.ofNat 0x2bc

/-- Python `content.replace("```", "ʼʼʼ")`: left-to-right, non-overlapping
replacement of every triple backtick (MediaAnalyzer.py line 65). -/
def replaceTriple : PyStr → PyStr
  | a :: b :: c :: rest =>
    if a = btick && b = btick && c = btick then
      apostro :: apostro :: apostro :: replaceTriple rest
    else
      a :: replaceTriple (b :: c :: rest)
  | s => s

/-- `"\n".join(...)` on a list of strings. -/
def joinNL : List PyStr → PyStr
  | [] => []
  | [x] => x
  | x :: xs => x ++ '\n' :: joinNL xs

/-- `True` iff the string contains no occurrence of three consecutive
backticks. -/
def noTriple : PyStr → Bool
  | a :: b :: c :: rest =>
    (!(a = btick && b = btick && c = btick)) && noTriple (b :: c :: rest)
  | _ => true

/-- The inner `while` of `safe_line_split` (MediaAnalyzer.py lines 36-40):
chunk one (already `\r`-stripped) line into pieces of at most `maxLen`
characters, dropping an empty remainder.  (Python would loop forever on
`maxLen = 0` with a non-empty line; the function is only ever called with
`max_line_len = 80`.) -/
def chunkLineGo (maxLen : Nat) : PyStr → Nat → List PyStr
  | [], _ => []
  | l, 0 => [l]
  | l, fuel+1 =>
    if maxLen = 0 then [l]
    else if maxLen < l.length then
      l.take maxLen :: chunkLineGo maxLen (l.drop maxLen) fuel
    else [l]

def chunkLine (maxLen : Nat) (l : PyStr) : List PyStr := chunkLineGo maxLen l l.length

/-- The chunk list `chunkLine m (List.replicate n a)` as a recursion on the
length `n` alone (used to evaluate `chunkLine` on very long uniform lines
without materialising them). -/
def repChunks (m : Nat) (a : Char) : Nat → Nat → List PyStr
  | _, 0 => []
  | 0, n+1 => [List.replicate (n+1) a]
  | fuel+1, n+1 =>
    if m = 0 then [List.replicate (n+1) a]
    else if m < n+1 then List.replicate m a :: repChunks m a fuel (n+1-m)
    else [List.replicate (n+1) a]

/-- `safe_line_split` (MediaAnalyzer.py lines 28-41): break text into
lines none of which exceeds `maxLen` characters. -/
def safe_line_split (text : PyStr) (maxLen : Nat) : List PyStr :=
  ((splitlinesPy text).map (fun raw => chunkLine maxLen (rstripCR raw))).flatten

/-- Number of characters `json.dumps` (with its default `ensure_ascii=True`)
produces for one input character inside a JSON string. -/
def jsonEscLen (c : Char) : Nat :=
  if c = '"' || c = '\\' then 2
  else if c = '\n' || c = '\r' || c = '\t' || c.toNat = 8 || c.toNat = 12 then 2
  else if c.toNat < 0x20 then 6
  else if c.toNat < 0x7f then 1
  else if c.toNat < 0x10000 then 6
  else 12

/-- Length of the `json.dumps` rendering of a string (without the two
enclosing quotes). -/
def jsonStrLen (s : PyStr) : Nat := (s.map jsonEscLen).sum

/-- Decimal-digit count of a natural number (length of `str(n)`). -/
def digitsLen (n : Nat) : Nat := (Nat.toDigits 10 n).length

/-- `discord.Color.blue().value`. -/
def colorBlue : Nat := 3447003

/-- `discord.Color.red().value`. -/
def colorRed : Nat := 15158332

/-- A `discord.Embed` as the cog uses it: an optional title, an optional
description, a colour, and a list of field *values*.  Every field the cog
adds has name `"​"` and `inline=False`, so only the value varies. -/
structure Embed where
  title : Option PyStr
  description : Option PyStr
  color : Nat
  fields : List PyStr
deriving DecidableEq, Repr

/-- A fresh `discord.Embed(color=discord.Color.blue())`. -/
def blueEmbed : Embed := { title := none, description := none, color := colorBlue, fields := [] }

/-- `embed_size` (MediaAnalyzer.py lines 20-26): `len(json.dumps(embed.to_dict()))`.
For the embeds this cog builds, `to_dict()` yields (in some key order —
irrelevant to the length)
`fields` (present iff a field was added; each entry
`\x7b"inline": false, "name": "​", "value": "..."\x7d`, 48 characters
plus the escaped value), `color`, `type` (always `"rich"`), and
`description`/`title` when non-empty.  `json.dumps` uses separators
`", "` and `": "`. -/
def embed_size (e : Embed) : Nat :=
  let fieldPart :=
    if e.fields.isEmpty then 0
    else 14 + (e.fields.map (fun v => 48 + jsonStrLen v)).sum + 2 * (e.fields.length - 1)
  let titlePart :=
    match e.title with
    | some t => if t.isEmpty then 0 else 13 + jsonStrLen t
    | none => 0
  let descPart :=
    match e.description with
    | some d => if d.isEmpty then 0 else 19 + jsonStrLen d
    | none => 0
  2 + (9 + digitsLen e.color) + 16 + fieldPart + descPart + titlePart

/-- The fenced field value `f"\x60\x60\x60\x7bfield_str\x7d\x60\x60\x60"`
built by `finalize_field` (MediaAnalyzer.py line 83). -/
def fenceWrap (s : PyStr) : PyStr := btick :: btick :: btick :: (s ++ [btick, btick, btick])

/-- `embed.add_field(name="​", value=v, inline=False)`. -/
def addField (e : Embed) (v : PyStr) : Embed := { e with fields := e.fields ++ [v] }

/-- `finalize_field` (MediaAnalyzer.py lines 76-91): join the buffered
lines, wrap in a code fence, and add the field iff the resulting embed
stays within 6000 JSON characters.  Returns the (possibly updated) embed
and the success flag. -/
def finalize_field (e : Embed) (linesForField : List PyStr) : Embed × Bool :=
  let fieldValue := fenceWrap (joinNL linesForField)
  let test := addField e fieldValue
  if embed_size test ≤ 6000 then (test, true) else (e, false)

/-- `push_current_embed` (MediaAnalyzer.py lines 93-97): append the
current embed to the output iff it has at least one field and fits in
6000 JSON characters. -/
def push_current_embed (embeds : List Embed) (current : Embed) : List Embed :=
  if 0 < current.fields.length ∧ embed_size current ≤ 6000 then embeds ++ [current]
  else embeds

/-- Creating a replacement embed (MediaAnalyzer.py lines 116-119 and
analogous sites): a fresh blue embed, titled with the section name only
if the title was not used yet. -/
def newEmbed (sectionName : PyStr) (usedTitle : Bool) : Embed × Bool :=
  if !usedTitle then ({ blueEmbed with title := some sectionName }, true)
  else (blueEmbed, usedTitle)

/-- The mutable locals of `build_embeds_for_section`'s loop. -/
structure BState where
  embeds : List Embed
  current : Embed
  usedTitle : Bool
  buffer : List PyStr
  fieldsInCurrent : Nat
deriving DecidableEq, Repr

/-- The recurring `if not finalize_field(...): push; fresh; retry` pattern
(MediaAnalyzer.py lines 112-120, 138-144, 157-163).  Returns the new
output list, current embed, and `used_title` flag. -/
def tryAddBuffer (sectionName : PyStr) (embeds : List Embed) (current : Embed)
    (usedTitle : Bool) (buffer : List PyStr) : List Embed × Embed × Bool :=
  if (finalize_field current buffer).2 then
    (embeds, (finalize_field current buffer).1, usedTitle)
  else
    let embeds' := push_current_embed embeds current
    let fresh := (newEmbed sectionName usedTitle).1
    let used' := (newEmbed sectionName usedTitle).2
    (embeds', (finalize_field fresh buffer).1, used')

/-- One iteration of the `for line in lines` loop of
`build_embeds_for_section` (MediaAnalyzer.py lines 105-153), transcribed
branch for branch (including the final `len(current_embed.fields) >=
max_fields_per_embed` block). -/
def stepLine (sectionName : PyStr) (maxFieldChars maxFieldsPerEmbed : Nat)
    (st : BState) (line : PyStr) : BState :=
  -- lines 108-131
  let st1 :=
    if maxFieldChars < (joinNL (st.buffer ++ [line])).length then
      let stA :=
        if st.buffer.isEmpty then st
        else
          let r := tryAddBuffer sectionName st.embeds st.current st.usedTitle st.buffer
          { embeds := r.1, current := r.2.1, usedTitle := r.2.2,
            buffer := [], fieldsInCurrent := r.2.1.fields.length }
      if maxFieldsPerEmbed ≤ stA.fieldsInCurrent then
        { embeds := push_current_embed stA.embeds stA.current,
          current := (newEmbed sectionName stA.usedTitle).1,
          usedTitle := (newEmbed sectionName stA.usedTitle).2,
          buffer := stA.buffer, fieldsInCurrent := 0 }
      else stA
    else st
  -- line 134
  let st2 := { st1 with buffer := st1.buffer ++ [line] }
  -- lines 136-153
  if maxFieldsPerEmbed ≤ st2.current.fields.length then
    let st3 :=
      if st2.buffer.isEmpty then st2
      else
        let r := tryAddBuffer sectionName st2.embeds st2.current st2.usedTitle st2.buffer
        { embeds := r.1, current := r.2.1, usedTitle := r.2.2,
          buffer := [], fieldsInCurrent := r.2.1.fields.length }
    if maxFieldsPerEmbed ≤ st3.current.fields.length then
      { embeds := push_current_embed st3.embeds st3.current,
        current := (newEmbed sectionName st3.usedTitle).1,
        usedTitle := (newEmbed sectionName st3.usedTitle).2,
        buffer := st3.buffer, fieldsInCurrent := st3.fieldsInCurrent }
    else st3
  else st2

/-- `build_embeds_for_section` (MediaAnalyzer.py lines 43-171). -/
def build_embeds_core (sectionName : PyStr) (lines : List PyStr)
    (maxFieldChars maxFieldsPerEmbed : Nat) : List Embed :=
  -- lines 99-103: the initial embed always gets the section title
  let st0 : BState :=
    { embeds := [], current := { blueEmbed with title := some sectionName },
      usedTitle := true, buffer := [], fieldsInCurrent := 0 }
  let stF := lines.foldl (stepLine sectionName maxFieldChars maxFieldsPerEmbed) st0
  -- lines 155-164: flush a remaining buffer
  let stG :=
    if stF.buffer.isEmpty then stF
    else
      let r := tryAddBuffer sectionName stF.embeds stF.current stF.usedTitle stF.buffer
      { embeds := r.1, current := r.2.1, usedTitle := r.2.2,
        buffer := [], fieldsInCurrent := stF.fieldsInCurrent }
  -- lines 166-169: push the final embed if it has content
  if 0 < stG.current.fields.length ∧ embed_size stG.current ≤ 6000 then
    stG.embeds ++ [stG.current]
  else stG.embeds

def build_embeds_for_section (sectionName content : PyStr)
    (maxLineLen : Nat := 80) (maxFieldChars : Nat := 900)
    (maxFieldsPerEmbed : Nat := 5) : List Embed :=
  let content := pyStrip content
  if content.isEmpty then []
  else
    build_embeds_core sectionName
      (safe_line_split (replaceTriple content) maxLineLen)
      maxFieldChars maxFieldsPerEmbed

/-- `chunk_embeds` (MediaAnalyzer.py lines 173-181): split the embed list
into pages of up to `size` embeds.  (Python's `range(0, n, 0)` would raise
`ValueError`; the function is only called with `size=10`.) -/
def chunk_embedsGo : List Embed → Nat → Nat → List (List Embed)
  | [], _, _ => []
  | _ :: _, 0, _ => []
  | _ :: _, _+1, 0 => []
  | a :: l, n+1, fuel+1 =>
    ((a :: l).take (n+1)) :: chunk_embedsGo ((a :: l).drop (n+1)) (n+1) fuel

def chunk_embeds (embeds : List Embed) (size : Nat) : List (List Embed) :=
  chunk_embedsGo embeds size embeds.length

/-- The placeholder embed of `build_pages` (MediaAnalyzer.py lines 355-359). -/
def noDataEmbed : Embed :=
  { title := some (pystr "No Crash Report Data Found"),
    description := some (pystr "Could not find Exception, Enhanced Stacktrace, or Installed Modules."),
    color := colorRed, fields := [] }

/-- `build_pages` (MediaAnalyzer.py lines 318-363). -/
def build_pages (exceptionText stacktraceText installedModulesText : PyStr) :
    List (List Embed) :=
  let excEmbeds := build_embeds_for_section (pystr "Exception") exceptionText 80 900 5
  let stackEmbeds := build_embeds_for_section (pystr "Enhanced Stacktrace") stacktraceText 80 900 5
  let modsEmbeds := build_embeds_for_section (pystr "Installed Modules") installedModulesText 80 900 5
  let allEmbeds := excEmbeds ++ stackEmbeds ++ modsEmbeds
  if allEmbeds.isEmpty then [[noDataEmbed]]
  else chunk_embeds allEmbeds 10

/-!
## Section extraction (`fetch_webpage`, MediaAnalyzer.py lines 247-303)

The three regexes share the shape
`[+-]\s*LABEL\s+([\s\S]+?)(?=\n[+-]\s*HEADINGS|\Z)` with `re.IGNORECASE`.
Their backtracking behaviour is deterministic: after the marker, `\s*`
must end exactly at the maximal whitespace run (every heading starts with
a non-space letter), the greedy `\s+` likewise, and the lazy `[\s\S]+?`
ends at the first position (after at least one character) where the
lookahead `\n[+-]\s*HEADINGS` matches or the input ends.  The one
exception: when nothing but whitespace follows the label, `\s+`
backtracks by one so the group captures the final whitespace character
(needing at least two whitespace characters after the label).
-/

/-- ASCII lower-casing, the case folding relevant to the all-ASCII labels
under `re.IGNORECASE`. -/
def asciiLower (c : Char) : Char :=
  if 'A' ≤ c ∧ c ≤ 'Z' then Char.ofNat (c.toNat + 32) else c

/-- Consume the literal `lit` case-insensitively from the head of `s`,
returning the rest on success. -/
def consumeCI : PyStr → PyStr → Option PyStr
  | [], s => some s
  | _ :: _, [] => none
  | p :: ps, c :: cs => if asciiLower p = asciiLower c then consumeCI ps cs else none

/-- The `headings_pattern` alternation (MediaAnalyzer.py lines 263-268). -/
def headings : List PyStr :=
  [pystr "Exception", pystr "Enhanced Stacktrace", pystr "Installed Modules",
   pystr "Loaded BLSE Plugins", pystr "Involved Modules and Plugins", pystr "Assemblies",
   pystr "Native Assemblies", pystr "Harmony Patches", pystr "Log Files", pystr "Mini Dump",
   pystr "Save File", pystr "Screenshot", pystr "Screenshot Data", pystr "Json Model Data"]

/-- Does the lookahead `\n[+-]\s*HEADINGS` match at the start of `s`?
This is the only way a section body is cut short: a newline, then a
marker character, optional whitespace, then one of the known headings. -/
def stopLookahead (s : PyStr) : Bool :=
  match s with
  | '\n' :: m :: r =>
    (m = '+' || m = '-') &&
      headings.any (fun h => (consumeCI h (r.dropWhile pyIsSpace)).isSome)
  | _ => false

/-- The lazy group `([\s\S]+?)` followed by `(?=\n[+-]\s*HEADINGS|\Z)`:
starting on a non-empty suffix, capture at least one character and stop
at the first subsequent position where the stop lookahead matches (or at
the end of input). -/
def bodyFrom : PyStr → PyStr
  | [] => []
  | c :: rest => c :: (if stopLookahead rest then [] else bodyFrom rest)

/-- Attempt the full pattern `[+-]\s*LABEL\s+([\s\S]+?)(?=...)` at the
start of `s`.  On success, returns the suffix of `s` at which the
captured group starts (the group itself is `bodyFrom` of that suffix). -/
def tryLabelAt (label : PyStr) (s : PyStr) : Option PyStr :=
  match s with
  | [] => none
  | m :: rest =>
    if m = '+' || m = '-' then
      match consumeCI label (rest.dropWhile pyIsSpace) with
      | none => none
      | some afterLabel =>
        match afterLabel with
        | [] => none
        | a :: _ =>
          if pyIsSpace a then
            let tail := afterLabel.dropWhile pyIsSpace
            if tail.isEmpty then
              -- only whitespace follows: `\s+` backtracks by one and the
              -- group captures the last whitespace character
              if 2 ≤ afterLabel.length then
                some (afterLabel.drop (afterLabel.length - 1))
              else none
            else some tail
          else none
    else none

/-- `re.search`: the leftmost position at which the pattern matches. -/
def searchLabel (label : PyStr) : PyStr → Option PyStr
  | [] => none
  | s@(_ :: rest) =>
    match tryLabelAt label s with
    | some t => some t
    | none => searchLabel label rest

/-- `regex.search(full_text)` followed by `.group(1).strip()` (with `""`
when there is no match) — MediaAnalyzer.py lines 283-288. -/
def extractBody (label : PyStr) (doc : PyStr) : PyStr :=
  match searchLabel label doc with
  | some tail => pyStrip (bodyFrom tail)
  | none => []

/-- One attempt of `^[+-]\s+(.*?)(?:\(|$)` (`re.MULTILINE`) at a
line-start position.  `\s` may consume newlines; the lazy group ranges
over non-newline characters and stops at the first `(` (consumed) or at
`$` (before a newline or at the end).  Returns the captured group and the
suffix at which scanning resumes. -/
def tryModMatch (s : PyStr) : Option (PyStr × PyStr) :=
  match s with
  | m :: a :: rest =>
    if (m = '+' || m = '-') && pyIsSpace a then
      let afterWs := (a :: rest).dropWhile pyIsSpace
      let grp := afterWs.takeWhile (fun c => c ≠ '(' && c ≠ '\n')
      let after := afterWs.dropWhile (fun c => c ≠ '(' && c ≠ '\n')
      if after.head? = some '(' then some (grp, after.tail) else some (grp, after)
    else none
  | _ => none

/-- `dropWhile` never lengthens a list. -/
theorem dropWhile_len_le (p : Char → Bool) (l : List Char) :
    (l.dropWhile p).length ≤ l.length := by
  induction l with
  | nil => simp
  | cons a t ih =>
    by_cases h : p a <;> simp [List.dropWhile_cons, h] <;> omega

/-- A successful module-line match strictly shrinks the input (used for
the termination of the scanner). -/
theorem tryModMatch_length {s grp s' : PyStr} (h : tryModMatch s = some (grp, s')) :
    s'.length < s.length := by
  match s with
  | [] => simp [tryModMatch] at h
  | [m] => simp [tryModMatch] at h
  | m :: a :: rest =>
    simp only [tryModMatch] at h
    split at h
    · have h1 : ((a :: rest).dropWhile pyIsSpace).length ≤ rest.length + 1 := by
        have := dropWhile_len_le pyIsSpace (a :: rest)
        simpa using this
      have h2 : (((a :: rest).dropWhile pyIsSpace).dropWhile
          (fun c => c ≠ '(' && c ≠ '\n')).length ≤
          ((a :: rest).dropWhile pyIsSpace).length :=
        dropWhile_len_le _ _
      split at h
      · cases h
        have := List.length_tail ((((a :: rest).dropWhile pyIsSpace)).dropWhile
          (fun c => c ≠ '(' && c ≠ '\n'))
        simp only [List.length_cons]
        omega
      · cases h
        simp only [List.length_cons]
        omega
    · simp at h

/-- `re.findall` scanning for the module-line pattern: try a match at
every line-start position (start of string, or just after a newline),
resuming after each match. -/
def scanMods : PyStr → Bool → List PyStr
  | [], _ => []
  | c :: rest, atLineStart =>
    if atLineStart then
      match h : tryModMatch (c :: rest) with
      | some (grp, s') => grp :: scanMods s' false
      | none => scanMods rest (c = '\n')
    else scanMods rest (c = '\n')
  termination_by s _ => s.length
  decreasing_by
    · exact tryModMatch_length h
    · simp
    · simp

/-- `mod_lines = re.findall(...)` then
`mod_names = [m.strip() for m in mod_lines if m.strip()]`
(MediaAnalyzer.py lines 292-293). -/
def modNamesOf (block : PyStr) : List PyStr :=
  ((scanMods block true).map pyStrip).filter (fun m => !m.isEmpty)

/-- The record `fetch_webpage` returns on success (MediaAnalyzer.py
lines 297-301). -/
structure CrashData where
  exception : PyStr
  enhanced_stacktrace : PyStr
  installed_modules : PyStr
deriving DecidableEq, Repr

/-- The parsing core of `fetch_webpage` (MediaAnalyzer.py lines 263-301),
applied to the already-fetched page text: extract the three sections; the
Installed Modules block is additionally post-processed into cleaned
module names joined by newlines (empty when there are no names). -/
def fetch_webpage_sections (fullText : PyStr) : CrashData :=
  { exception := extractBody (pystr "Exception") fullText
    enhanced_stacktrace := extractBody (pystr "Enhanced Stacktrace") fullText
    installed_modules :=
      match searchLabel (pystr "Installed Modules") fullText with
      | none => []
      | some tail =>
        let modulesBlock := bodyFrom tail
        let modNames := modNamesOf modulesBlock
        if modNames.isEmpty then [] else joinNL modNames }

/-!
## Constants named by the specification

The spec's names for the capacity constants of the reference
configuration (`build_pages` calls `build_embeds_for_section` with
`max_line_len=80`, `max_field_chars=900`, `max_fields_per_embed=5`, and
chunks pages at 10). -/

/-- Spec: maximum serialized size of one card. -/
def CARD_BYTE_LIMIT : Nat := 6000

/-- Spec: maximum length of one field's text (1024, of which the code
reserves headroom by capping the unfenced text at 900 characters). -/
def FIELD_CHAR_LIMIT : Nat := 1024

/-- Spec: maximum number of fields per card in the reference call. -/
def MAX_FIELDS_PER_CARD : Nat := 5

/-- Spec: maximum number of cards per page. -/
def MAX_CARDS_PER_PAGE : Nat := 10

/-- `LATIN SMALL LETTER E WITH ACUTE` (U+00E9); `json.dumps` escapes it to
six characters. -/
def eAcute : Char := Char.ofNat 0xe9

/-- A single unbroken 1100-character line whose code-fenced form
serializes to 6606 > 6000 JSON characters. -/
def c6body : PyStr := List.replicate 1100 eAcute

/-- One 75-character line of `U+1F600` (each serializes to a 12-character
surrogate-pair escape). -/
def c8line : PyStr := List.replicate 75 (Char.ofNat 0x1f600)

/-- Section content of 12 such lines followed by `"hello"`: every
buffered group of emoji lines fails `finalize_field` even on a fresh
embed, so only the trailing `"hello"` survives. -/
def c8input : PyStr := joinNL (List.replicate 12 c8line ++ [pystr "hello"])

/-!
## Spec-side definitions for the module-list post-processing (claim C5)

`modNamesClaimPerLine` renders the claim's words literally; the code's
`re.findall`-based behaviour (`modNamesOf`) differs from it.
`modNamesAmended` is the amended per-line description. -/

/-- Python `str.split('\n')`. -/
def splitNl : PyStr → List PyStr
  | [] => [[]]
  | c :: r =>
    if c = '\n' then [] :: splitNl r
    else
      match splitNl r with
      | h :: t => (c :: h) :: t
      | [] => [[c]]

/-- Modelled from the spec (claim C5's words): "each line starting with a
marker character yields the line's text with the marker stripped,
everything from the first `(` onward stripped, and surrounding whitespace
trimmed, in order of appearance, with non-matching lines ignored." -/
def modNamesClaimPerLine (block : PyStr) : List PyStr :=
  (splitNl block).filterMap fun l =>
    match l with
    | [] => none
    | m :: rest =>
      if m = '+' || m = '-' then some (pyStrip (rest.takeWhile (· ≠ '('))) else none

/-- The group the module-line regex captures on one (newline-free) line:
the marker must be followed by at least one whitespace character and the
line must have non-whitespace content after the marker; the capture is
the content after that whitespace, cut at the first `(`. -/
def rawLineEntry (l : PyStr) : Option PyStr :=
  match l with
  | m :: a :: rest =>
    if (m = '+' || m = '-') && pyIsSpace a then
      let content := (a :: rest).dropWhile pyIsSpace
      if content.isEmpty then none
      else some (content.takeWhile (· ≠ '('))
    else none
  | _ => none

/-- Amended per-line description of the module post-processing: the
captured text is trimmed and dropped when it trims to nothing. -/
def amendedLineEntry (l : PyStr) : Option PyStr :=
  (rawLineEntry l).bind fun g =>
    let e := pyStrip g
    if e.isEmpty then none else some e

/-- Amended per-line module-name extraction for blocks without
marker-plus-whitespace-only lines. -/
def modNamesAmended (block : PyStr) : List PyStr :=
  (splitNl block).filterMap amendedLineEntry

/-- A line consisting of a marker character followed by nothing but
whitespace.  On such lines the regex's `\s+` may run past the end of the
line (`\s` matches the newline), so the code's behaviour is not
per-line. -/
def markerWsOnlyLine (l : PyStr) : Bool :=
  match l with
  | m :: rest => (m = '+' || m = '-') && rest.all pyIsSpace
  | [] => false

/-!
## Proof-infrastructure definitions -/

/-- `l` occurs contiguously inside `s`. -/
def withinStr (l s : PyStr) : Prop := ∃ t u, s = t ++ l ++ u

/-- Whether the window made of `a` and the first two characters of `l` is
*not* a triple backtick (trivially true when `l` is too short). -/
def headWin (a : Char) (l : PyStr) : Bool :=
  match l with
  | b :: c :: _ => !(a = btick && b = btick && c = btick)
  | _ => true

/-- Number of leading backticks. -/
def leadTicks (l : PyStr) : Nat := (l.takeWhile (· = btick)).length

/-- A field value is well-fenced: exactly a code fence around text that
contains no triple backtick. -/
def fencedOK (v : PyStr) : Prop := ∃ s, v = fenceWrap s ∧ noTriple s = true

/-- The components of the pagination state that the capacity and size
invariants constrain (parameters: `F` = `max_field_chars`, `M` =
`max_fields_per_embed`). -/
structure MInv (F M : Nat) (st : BState) : Prop where
  embeds_ok : ∀ e ∈ st.embeds,
    embed_size e ≤ 6000 ∧ e.fields.length ≤ M ∧ ∀ v ∈ e.fields, v.length ≤ F + 6
  cur_len : st.current.fields.length < M
  cur_vals : ∀ v ∈ st.current.fields, v.length ≤ F + 6
  buf_join : (joinNL st.buffer).length ≤ F

/-- The fencing invariant of the pagination state. -/
structure FInv (st : BState) : Prop where
  embeds_f : ∀ e ∈ st.embeds, ∀ v ∈ e.fields, fencedOK v
  cur_f : ∀ v ∈ st.current.fields, fencedOK v
  buf_t : ∀ l ∈ st.buffer, noTriple l = true

/-!
# Theorems

## The backtick-fencing toolkit -/

theorem noTriple_cons (a : Char) (l : PyStr) :
    noTriple (a :: l) = (headWin a l && noTriple l) := by
  match l with
  | [] => simp [noTriple, headWin]
  | [b] => simp [noTriple, headWin]
  | b :: c :: r => rfl

theorem headWin_of_ne {a : Char} (h : a ≠ btick) (l : PyStr) : headWin a l = true := by
  unfold headWin
  split <;> simp [h]

theorem headWin_of_leadTicks {a : Char} {l : PyStr} (h : leadTicks l ≤ 1) :
    headWin a l = true := by
  unfold headWin
  split
  · rename_i b c r
    by_cases hb : b = btick
    · by_cases hc : c = btick
      · exfalso
        unfold leadTicks at h
        simp [List.takeWhile_cons, hb, hc] at h
      · simp [hc]
    · simp [hb]
  · rfl

theorem headWin_snd_safe {m : Char} (hm : m ≠ btick) (a : Char) (ys : PyStr) :
    headWin a (m :: ys) = true := by
  cases ys with
  | nil => rfl
  | cons y r => simp [headWin, hm]

theorem headWin_third_safe {m : Char} (hm : m ≠ btick) (a b : Char) (ys : PyStr) :
    headWin a (b :: m :: ys) = true := by
  simp [headWin, hm]

theorem noTriple_tail {a : Char} {l : PyStr} (h : noTriple (a :: l) = true) :
    noTriple l = true := by
  rw [noTriple_cons, Bool.and_eq_true] at h
  exact h.2

theorem noTriple_head_win {a : Char} {l : PyStr} (h : noTriple (a :: l) = true) :
    headWin a l = true := by
  rw [noTriple_cons, Bool.and_eq_true] at h
  exact h.1

theorem noTriple_append_right {xs ys : PyStr} (h : noTriple (xs ++ ys) = true) :
    noTriple ys = true := by
  induction xs with
  | nil => exact h
  | cons a t ih => exact ih (noTriple_tail h)

theorem noTriple_append_left : ∀ {xs ys : PyStr}, noTriple (xs ++ ys) = true →
    noTriple xs = true
  | [], _, _ => rfl
  | [_], _, _ => rfl
  | [_, _], _, _ => rfl
  | a :: b :: c :: r, ys, h => by
    rw [List.cons_append, noTriple_cons, Bool.and_eq_true] at h
    rcases h with ⟨h1, h2⟩
    rw [noTriple_cons, Bool.and_eq_true]
    refine ⟨?_, noTriple_append_left h2⟩
    simpa [headWin] using h1

theorem noTriple_within {l s : PyStr} (hs : noTriple s = true) (hw : withinStr l s) :
    noTriple l = true := by
  rcases hw with ⟨t, u, rfl⟩
  rw [List.append_assoc] at hs
  exact noTriple_append_left (noTriple_append_right hs)

theorem noTriple_cons_of {a : Char} {l : PyStr} (ha : a ≠ btick)
    (h : noTriple l = true) : noTriple (a :: l) = true := by
  rw [noTriple_cons, headWin_of_ne ha, h, Bool.and_self]

theorem noTriple_sep_append {m : Char} (hm : m ≠ btick) :
    ∀ {xs ys : PyStr}, noTriple xs = true → noTriple ys = true →
      noTriple (xs ++ m :: ys) = true
  | [], _, _, hy => noTriple_cons_of hm hy
  | [a], ys, _, hy => by
    have h2 : noTriple (m :: ys) = true := noTriple_cons_of hm hy
    rw [List.singleton_append, noTriple_cons, h2, Bool.and_true]
    exact headWin_snd_safe hm a ys
  | [a, b], ys, _, hy => by
    have h2 : noTriple (m :: ys) = true := noTriple_cons_of hm hy
    have h1 : noTriple (b :: m :: ys) = true := by
      rw [noTriple_cons, h2, Bool.and_true]
      exact headWin_snd_safe hm b ys
    have hsh : ([a, b] ++ m :: ys) = a :: b :: m :: ys := rfl
    rw [hsh, noTriple_cons, h1, Bool.and_true]
    exact headWin_third_safe hm a b ys
  | a :: b :: c :: t, ys, hx, hy => by
    have hx' : noTriple (b :: c :: t) = true := noTriple_tail hx
    have ih := noTriple_sep_append hm hx' hy
    have hsh : ((a :: b :: c :: t) ++ m :: ys) = a :: (b :: c :: (t ++ m :: ys)) := rfl
    rw [hsh, noTriple_cons]
    have ih' : noTriple (b :: c :: (t ++ m :: ys)) = true := ih
    rw [ih', Bool.and_true]
    have hw : headWin a (b :: c :: (t ++ m :: ys)) = headWin a (b :: c :: t) := rfl
    rw [hw]
    exact noTriple_head_win hx

theorem noTriple_joinNL : ∀ {buf : List PyStr},
    (∀ l ∈ buf, noTriple l = true) → noTriple (joinNL buf) = true
  | [], _ => rfl
  | [x], h => h x (by simp)
  | x :: y :: r, h => by
    have hx : noTriple x = true := h x (by simp)
    have hr : noTriple (joinNL (y :: r)) = true :=
      noTriple_joinNL (fun l hl => h l (List.mem_cons_of_mem x hl))
    show noTriple (x ++ '\n' :: joinNL (y :: r)) = true
    exact noTriple_sep_append (by decide) hx hr

/-! ## Occurrence lemmas for the line splitters -/

theorem withinStr_refl (s : PyStr) : withinStr s s := ⟨[], [], by simp⟩

theorem withinStr_trans {a b c : PyStr} (h1 : withinStr a b) (h2 : withinStr b c) :
    withinStr a c := by
  rcases h1 with ⟨t, u, rfl⟩
  rcases h2 with ⟨t', u', rfl⟩
  exact ⟨t' ++ t, u ++ u', by simp⟩

theorem withinStr_cons (c : Char) {l s : PyStr} (h : withinStr l s) :
    withinStr l (c :: s) := by
  rcases h with ⟨t, u, rfl⟩
  exact ⟨c :: t, u, rfl⟩

theorem rstripCR_within (s : PyStr) : withinStr (rstripCR s) s := by
  refine ⟨[], (s.reverse.takeWhile (· = '\r')).reverse, ?_⟩
  have h2 : (s.reverse.dropWhile (· = '\r')).reverse ++
      (s.reverse.takeWhile (· = '\r')).reverse = s := by
    have h := List.takeWhile_append_dropWhile (p := (· = '\r')) (l := s.reverse)
    calc (s.reverse.dropWhile (· = '\r')).reverse ++ (s.reverse.takeWhile (· = '\r')).reverse
        = (s.reverse.takeWhile (· = '\r') ++ s.reverse.dropWhile (· = '\r')).reverse := by
          rw [List.reverse_append]
      _ = s.reverse.reverse := by rw [h]
      _ = s := by simp
  simpa [rstripCR] using h2.symm

theorem chunkLineGo_within (maxLen : Nat) : ∀ (fuel : Nat) (l : PyStr),
    ∀ p ∈ chunkLineGo maxLen l fuel, withinStr p l := by
  intro fuel
  induction fuel with
  | zero =>
    intro l p hp
    cases l with
    | nil => rw [show chunkLineGo maxLen ([] : PyStr) 0 = [] from rfl] at hp; cases hp
    | cons c r =>
      rw [show chunkLineGo maxLen (c :: r) 0 = [c :: r] from rfl] at hp
      rcases List.mem_singleton.1 hp with rfl
      exact withinStr_refl _
  | succ fuel ih =>
    intro l p hp
    cases l with
    | nil => rw [show chunkLineGo maxLen ([] : PyStr) (fuel+1) = [] from rfl] at hp; cases hp
    | cons c r =>
      have heq : chunkLineGo maxLen (c :: r) (fuel+1) =
          if maxLen = 0 then [c :: r]
          else if maxLen < (c :: r).length then
            (c :: r).take maxLen :: chunkLineGo maxLen ((c :: r).drop maxLen) fuel
          else [c :: r] := rfl
      rw [heq] at hp
      by_cases h0 : maxLen = 0
      · rw [if_pos h0] at hp
        rcases List.mem_singleton.1 hp with rfl
        exact withinStr_refl _
      · rw [if_neg h0] at hp
        by_cases h1 : maxLen < (c :: r).length
        · rw [if_pos h1] at hp
          rcases List.mem_cons.1 hp with rfl | hp'
          · exact ⟨[], (c :: r).drop maxLen, by simp⟩
          · exact withinStr_trans (ih _ p hp') ⟨(c :: r).take maxLen, [], by simp⟩
        · rw [if_neg h1] at hp
          rcases List.mem_singleton.1 hp with rfl
          exact withinStr_refl _

theorem chunkLine_within (maxLen : Nat) (l : PyStr) :
    ∀ p ∈ chunkLine maxLen l, withinStr p l :=
  chunkLineGo_within maxLen l.length l

theorem chunkLineGo_short {maxLen : Nat} (hm : 0 < maxLen) : ∀ (fuel : Nat) (l : PyStr),
    l.length ≤ fuel → ∀ p ∈ chunkLineGo maxLen l fuel, p.length ≤ maxLen := by
  intro fuel
  induction fuel with
  | zero =>
    intro l hlen p hp
    cases l with
    | nil => rw [show chunkLineGo maxLen ([] : PyStr) 0 = [] from rfl] at hp; cases hp
    | cons c r => simp at hlen
  | succ fuel ih =>
    intro l hlen p hp
    cases l with
    | nil => rw [show chunkLineGo maxLen ([] : PyStr) (fuel+1) = [] from rfl] at hp; cases hp
    | cons c r =>
      have heq : chunkLineGo maxLen (c :: r) (fuel+1) =
          if maxLen = 0 then [c :: r]
          else if maxLen < (c :: r).length then
            (c :: r).take maxLen :: chunkLineGo maxLen ((c :: r).drop maxLen) fuel
          else [c :: r] := rfl
      rw [heq] at hp
      rw [if_neg (Nat.pos_iff_ne_zero.1 hm)] at hp
      by_cases h1 : maxLen < (c :: r).length
      · rw [if_pos h1] at hp
        rcases List.mem_cons.1 hp with rfl | hp'
        · rw [List.length_take]
          exact Nat.min_le_left _ _
        · refine ih _ ?_ p hp'
          simp only [List.length_drop, List.length_cons]
          simp only [List.length_cons] at hlen
          omega
      · rw [if_neg h1] at hp
        rcases List.mem_singleton.1 hp with rfl
        omega

theorem chunkLine_short {maxLen : Nat} (hm : 0 < maxLen) (l : PyStr) :
    ∀ p ∈ chunkLine maxLen l, p.length ≤ maxLen :=
  chunkLineGo_short hm l.length l (Nat.le_refl _)

theorem splitlinesGo_spec : ∀ (fuel : Nat) (s : PyStr), s.length ≤ fuel →
    (∀ p ∈ splitlinesGo s fuel, withinStr p s) ∧
    (∀ line more, splitlinesGo s fuel = line :: more → ∃ u, s = line ++ u) := by
  intro fuel
  induction fuel with
  | zero =>
    intro s hlen
    cases s with
    | nil =>
      refine ⟨?_, ?_⟩
      · intro p hp
        rw [show splitlinesGo ([] : PyStr) 0 = [] from rfl] at hp
        cases hp
      · intro line more h
        rw [show splitlinesGo ([] : PyStr) 0 = [] from rfl] at h
        cases h
    | cons c r => simp at hlen
  | succ fuel ih =>
    intro s hlen
    cases s with
    | nil =>
      refine ⟨?_, ?_⟩
      · intro p hp
        rw [show splitlinesGo ([] : PyStr) (fuel+1) = [] from rfl] at hp
        cases hp
      · intro line more h
        rw [show splitlinesGo ([] : PyStr) (fuel+1) = [] from rfl] at h
        cases h
    | cons c rest =>
      have heq : splitlinesGo (c :: rest) (fuel+1) =
          if pyIsLineBreak c then
            if c = '\r' && rest.head? = some '\n' then
              [] :: splitlinesGo rest.tail fuel
            else
              [] :: splitlinesGo rest fuel
          else
            match splitlinesGo rest fuel with
            | [] => [[c]]
            | line :: more => (c :: line) :: more := rfl
      have hrlen : rest.length ≤ fuel := by
        simp only [List.length_cons] at hlen
        omega
      by_cases h1 : pyIsLineBreak c = true
      · rw [heq, if_pos h1]
        by_cases h2 : (c = '\r' && rest.head? = some '\n') = true
        · rw [if_pos h2]
          have hr : rest = '\n' :: rest.tail := by
            rw [Bool.and_eq_true] at h2
            rcases h2 with ⟨_, hh⟩
            rcases rest with _ | ⟨r0, rt⟩
            · simp at hh
            · simp only [List.head?_cons, Option.some.injEq, decide_eq_true_eq] at hh
              simp [hh]
          have htlen : rest.tail.length ≤ fuel := by
            rw [List.length_tail]
            omega
          have ihs := ih rest.tail htlen
          constructor
          · intro p hp
            rcases List.mem_cons.1 hp with rfl | hp'
            · exact ⟨[], c :: rest, rfl⟩
            · refine withinStr_trans (ihs.1 p hp') ⟨[c, '\n'], [], ?_⟩
              conv_lhs => rw [hr]
              simp
          · intro line more hlm
            cases hlm
            exact ⟨c :: rest, rfl⟩
        · rw [if_neg h2]
          have ihs := ih rest hrlen
          constructor
          · intro p hp
            rcases List.mem_cons.1 hp with rfl | hp'
            · exact ⟨[], c :: rest, rfl⟩
            · exact withinStr_cons c (ihs.1 p hp')
          · intro line more hlm
            cases hlm
            exact ⟨c :: rest, rfl⟩
      · rw [heq, if_neg h1]
        have ihs := ih rest hrlen
        cases hsp : splitlinesGo rest fuel with
        | nil =>
          constructor
          · intro p hp
            rcases List.mem_singleton.1 hp with rfl
            exact ⟨[], rest, rfl⟩
          · intro line more hlm
            cases hlm
            exact ⟨rest, rfl⟩
        | cons line0 more0 =>
          rcases ihs.2 line0 more0 hsp with ⟨u, hu⟩
          constructor
          · intro p hp
            rcases List.mem_cons.1 hp with rfl | hp'
            · exact ⟨[], u, by rw [hu]; rfl⟩
            · exact withinStr_cons c (ihs.1 p (hsp ▸ List.mem_cons_of_mem line0 hp'))
          · intro line' more' hlm
            cases hlm
            exact ⟨u, by rw [hu]; rfl⟩

theorem prependFirst_nil : ∀ l : List PyStr, prependFirst [] l = l
  | [] => rfl
  | x :: xs => by simp [prependFirst]

theorem splitlinesTR_eq : ∀ (fuel : Nat) (s : PyStr) (out : List PyStr) (acc : PyStr),
    splitlinesTR out acc s fuel =
      out.reverse ++ prependFirst acc.reverse (splitlinesGo s fuel) := by
  intro fuel
  induction fuel with
  | zero =>
    intro s out acc
    cases s with
    | nil =>
      show (if acc.isEmpty then out else acc.reverse :: out).reverse
          = out.reverse ++ prependFirst acc.reverse (splitlinesGo [] 0)
      rw [show splitlinesGo ([] : PyStr) 0 = [] from rfl]
      by_cases ha : acc.isEmpty = true
      · rw [if_pos ha]
        rw [List.isEmpty_iff] at ha
        rw [ha]
        simp [prependFirst]
      · rw [if_neg ha]
        rw [List.reverse_cons]
        have hne : acc.reverse.isEmpty = false := by
          rw [List.isEmpty_iff] at ha
          cases hrev : acc.reverse.isEmpty with
          | false => rfl
          | true => exact absurd (List.reverse_eq_nil_iff.1 (List.isEmpty_iff.1 hrev)) ha
        simp [prependFirst, hne]
    | cons c rest =>
      show ((acc.reverse ++ c :: rest) :: out).reverse
          = out.reverse ++ prependFirst acc.reverse (splitlinesGo (c :: rest) 0)
      rw [show splitlinesGo (c :: rest) 0 = [c :: rest] from rfl]
      rw [List.reverse_cons]
      simp [prependFirst]
  | succ fuel ih =>
    intro s out acc
    cases s with
    | nil =>
      show (if acc.isEmpty then out else acc.reverse :: out).reverse
          = out.reverse ++ prependFirst acc.reverse (splitlinesGo [] (fuel+1))
      rw [show splitlinesGo ([] : PyStr) (fuel+1) = [] from rfl]
      by_cases ha : acc.isEmpty = true
      · rw [if_pos ha]
        rw [List.isEmpty_iff] at ha
        rw [ha]
        simp [prependFirst]
      · rw [if_neg ha]
        rw [List.reverse_cons]
        have hne : acc.reverse.isEmpty = false := by
          rw [List.isEmpty_iff] at ha
          cases hrev : acc.reverse.isEmpty with
          | false => rfl
          | true => exact absurd (List.reverse_eq_nil_iff.1 (List.isEmpty_iff.1 hrev)) ha
        simp [prependFirst, hne]
    | cons c rest =>
      have heqTR : splitlinesTR out acc (c :: rest) (fuel+1) =
          if pyIsLineBreak c then
            if c = '\r' && rest.head? = some '\n' then
              splitlinesTR (acc.reverse :: out) [] rest.tail fuel
            else
              splitlinesTR (acc.reverse :: out) [] rest fuel
          else splitlinesTR out (c :: acc) rest fuel := rfl
      have heqNT : splitlinesGo (c :: rest) (fuel+1) =
          if pyIsLineBreak c then
            if c = '\r' && rest.head? = some '\n' then
              [] :: splitlinesGo rest.tail fuel
            else
              [] :: splitlinesGo rest fuel
          else
            match splitlinesGo rest fuel with
            | [] => [[c]]
            | line :: more => (c :: line) :: more := rfl
      rw [heqTR, heqNT]
      by_cases h1 : pyIsLineBreak c = true
      · rw [if_pos h1, if_pos h1]
        by_cases h2 : (c = '\r' && rest.head? = some '\n') = true
        · rw [if_pos h2, if_pos h2]
          rw [ih rest.tail (acc.reverse :: out) []]
          rw [List.reverse_cons]
          rw [show ([] : PyStr).reverse = [] from rfl, prependFirst_nil]
          simp [prependFirst, List.append_assoc]
        · rw [if_neg h2, if_neg h2]
          rw [ih rest (acc.reverse :: out) []]
          rw [List.reverse_cons]
          rw [show ([] : PyStr).reverse = [] from rfl, prependFirst_nil]
          simp [prependFirst, List.append_assoc]
      · rw [if_neg h1, if_neg h1]
        rw [ih rest out (c :: acc)]
        congr 1
        cases hm : splitlinesGo rest fuel with
        | nil =>
          have hne : ((c :: acc).reverse).isEmpty = false := by
            cases hrev : ((c :: acc).reverse).isEmpty with
            | false => rfl
            | true =>
              have h0 := List.isEmpty_iff.1 hrev
              simp at h0
          simp [prependFirst, hne, List.reverse_cons]
        | cons l m =>
          simp [prependFirst, List.reverse_cons, List.append_assoc]

theorem splitlinesPy_eq_go (s : PyStr) : splitlinesPy s = splitlinesGo s s.length := by
  show splitlinesTR [] [] s s.length = _
  rw [splitlinesTR_eq]
  rw [show ([] : PyStr).reverse = [] from rfl, prependFirst_nil]
  rfl

theorem splitlinesPy_within : ∀ s : PyStr,
    (∀ p ∈ splitlinesPy s, withinStr p s) ∧
    (∀ line more, splitlinesPy s = line :: more → ∃ u, s = line ++ u) := by
  intro s
  rw [splitlinesPy_eq_go]
  exact splitlinesGo_spec s.length s (Nat.le_refl _)

/-! ## Evaluating the pipeline on long uniform single-line bodies -/

theorem dropWhile_eq_self_of_all {p : Char → Bool} :
    ∀ {l : PyStr}, (∀ c ∈ l, p c = false) → l.dropWhile p = l
  | [], _ => rfl
  | c :: r, h => by
    rw [List.dropWhile_cons, h c (List.mem_cons_self c r)]
    simp

theorem rstripCR_id {s : PyStr} (h : ∀ c ∈ s, c ≠ '\r') : rstripCR s = s := by
  unfold rstripCR
  rw [dropWhile_eq_self_of_all
    (fun c hc => decide_eq_false (h c (List.mem_reverse.1 hc)))]
  exact List.reverse_reverse s

theorem pyStrip_id {s : PyStr} (h : ∀ c ∈ s, pyIsSpace c = false) : pyStrip s = s := by
  unfold pyStrip
  rw [dropWhile_eq_self_of_all h]
  rw [dropWhile_eq_self_of_all (fun c hc => h c (List.mem_reverse.1 hc))]
  exact List.reverse_reverse s

theorem replaceTriple_id : ∀ (s : PyStr), (∀ c ∈ s, c ≠ btick) → replaceTriple s = s
  | [], _ => rfl
  | [_], _ => rfl
  | [_, _], _ => rfl
  | a :: b :: c :: rest, h => by
    have heq : replaceTriple (a :: b :: c :: rest) =
        if a = btick && b = btick && c = btick then
          apostro :: apostro :: apostro :: replaceTriple rest
        else a :: replaceTriple (b :: c :: rest) := rfl
    rw [heq]
    have ha : (decide (a = btick)) = false := decide_eq_false (h a (by simp))
    have hcond : (a = btick && b = btick && c = btick) = false := by
      rw [ha, Bool.false_and, Bool.false_and]
    rw [if_neg (by rw [hcond]; exact Bool.false_ne_true)]
    rw [replaceTriple_id (b :: c :: rest) (fun x hx => h x (List.mem_cons_of_mem a hx))]

theorem splitlinesGo_noBreak : ∀ (fuel : Nat) (s : PyStr), s.length ≤ fuel → s ≠ [] →
    (∀ c ∈ s, pyIsLineBreak c = false) → splitlinesGo s fuel = [s] := by
  intro fuel
  induction fuel with
  | zero =>
    intro s hlen hne _
    cases s with
    | nil => exact absurd rfl hne
    | cons c r => simp at hlen
  | succ fuel ih =>
    intro s hlen hne hnb
    cases s with
    | nil => exact absurd rfl hne
    | cons c rest =>
      have heq : splitlinesGo (c :: rest) (fuel+1) =
          if pyIsLineBreak c then
            if c = '\r' && rest.head? = some '\n' then
              [] :: splitlinesGo rest.tail fuel
            else
              [] :: splitlinesGo rest fuel
          else
            match splitlinesGo rest fuel with
            | [] => [[c]]
            | line :: more => (c :: line) :: more := rfl
      rw [heq]
      have hc : pyIsLineBreak c = false := hnb c (List.mem_cons_self c rest)
      rw [if_neg (by rw [hc]; exact Bool.false_ne_true)]
      cases rest with
      | nil =>
        have h0 : splitlinesGo ([] : PyStr) fuel = [] := by cases fuel <;> rfl
        rw [h0]
      | cons d rs =>
        have hrec : splitlinesGo (d :: rs) fuel = [d :: rs] := by
          refine ih (d :: rs) ?_ (by simp) (fun x hx => hnb x (List.mem_cons_of_mem c hx))
          simp only [List.length_cons] at hlen ⊢
          omega
        rw [hrec]

theorem splitlinesPy_noBreak {s : PyStr} (hne : s ≠ [])
    (hnb : ∀ c ∈ s, pyIsLineBreak c = false) : splitlinesPy s = [s] := by
  rw [splitlinesPy_eq_go]
  exact splitlinesGo_noBreak s.length s (Nat.le_refl _) hne hnb

theorem chunkLineGo_replicate (m : Nat) (a : Char) : ∀ (fuel n : Nat),
    chunkLineGo m (List.replicate n a) fuel = repChunks m a fuel n := by
  intro fuel
  induction fuel with
  | zero =>
    intro n
    cases n with
    | zero => rfl
    | succ k => rfl
  | succ fuel ih =>
    intro n
    cases n with
    | zero => rfl
    | succ k =>
      have hL : chunkLineGo m (List.replicate (k+1) a) (fuel+1) =
          if m = 0 then [List.replicate (k+1) a]
          else if m < (List.replicate (k+1) a).length then
            (List.replicate (k+1) a).take m ::
              chunkLineGo m ((List.replicate (k+1) a).drop m) fuel
          else [List.replicate (k+1) a] := rfl
      have hR : repChunks m a (fuel+1) (k+1) =
          if m = 0 then [List.replicate (k+1) a]
          else if m < k+1 then List.replicate m a :: repChunks m a fuel (k+1-m)
          else [List.replicate (k+1) a] := rfl
      rw [hL, hR, List.length_replicate]
      by_cases h0 : m = 0
      · rw [if_pos h0, if_pos h0]
      · rw [if_neg h0, if_neg h0]
        by_cases h1 : m < k+1
        · rw [if_pos h1, if_pos h1]
          rw [List.take_replicate, List.drop_replicate]
          rw [Nat.min_eq_left (Nat.le_of_lt h1)]
          rw [ih (k+1-m)]
        · rw [if_neg h1, if_neg h1]

theorem chunkLine_replicate (m n : Nat) (a : Char) :
    chunkLine m (List.replicate n a) = repChunks m a n n := by
  show chunkLineGo m (List.replicate n a) (List.replicate n a).length = _
  rw [List.length_replicate]
  exact chunkLineGo_replicate m a n n

theorem safe_line_split_replicate {n : Nat} (hn : n ≠ 0) (a : Char)
    (hnb : pyIsLineBreak a = false) (hcr : a ≠ '\r') (m : Nat) :
    safe_line_split (List.replicate n a) m = repChunks m a n n := by
  unfold safe_line_split
  rw [splitlinesPy_noBreak (by simp [hn])
    (fun c hc => by rw [List.eq_of_mem_replicate hc]; exact hnb)]
  simp only [List.map_cons, List.map_nil]
  rw [rstripCR_id (fun c hc => by rw [List.eq_of_mem_replicate hc]; exact hcr)]
  rw [chunkLine_replicate]
  simp

theorem safe_line_split_within (t : PyStr) (maxLen : Nat) :
    ∀ l ∈ safe_line_split t maxLen, withinStr l t := by
  intro l hl
  unfold safe_line_split at hl
  rcases List.mem_flatten.1 hl with ⟨chunks, hc, hlc⟩
  rcases List.mem_map.1 hc with ⟨raw, hraw, rfl⟩
  exact withinStr_trans
    (withinStr_trans (chunkLine_within maxLen (rstripCR raw) l hlc) (rstripCR_within raw))
    ((splitlinesPy_within t).1 raw hraw)

theorem safe_line_split_short {maxLen : Nat} (hm : 0 < maxLen) (t : PyStr) :
    ∀ l ∈ safe_line_split t maxLen, l.length ≤ maxLen := by
  intro l hl
  unfold safe_line_split at hl
  rcases List.mem_flatten.1 hl with ⟨chunks, hc, hlc⟩
  rcases List.mem_map.1 hc with ⟨raw, _, rfl⟩
  exact chunkLine_short hm (rstripCR raw) l hlc

/-! ## `replace("```", "ʼʼʼ")` leaves no triple backtick -/

theorem leadTicks_cons_ne {a : Char} (h : a ≠ btick) (l : PyStr) :
    leadTicks (a :: l) = 0 := by
  simp [leadTicks, List.takeWhile_cons, h]

theorem leadTicks_cons_tick (l : PyStr) : leadTicks (btick :: l) = leadTicks l + 1 := by
  simp [leadTicks, List.takeWhile_cons]

theorem leadTicks_le_length (l : PyStr) : leadTicks l ≤ l.length := by
  induction l with
  | nil => simp [leadTicks]
  | cons a t ih =>
    by_cases h : a = btick
    · subst h
      rw [leadTicks_cons_tick]
      simp
      omega
    · rw [leadTicks_cons_ne h]
      omega

theorem replaceTriple_spec : ∀ s : PyStr,
    noTriple (replaceTriple s) = true ∧
    leadTicks (replaceTriple s) ≤ leadTicks s ∧ leadTicks (replaceTriple s) ≤ 2
  | [] => ⟨rfl, Nat.le_refl _, by decide⟩
  | [a] => ⟨rfl, Nat.le_refl _, by
      have h := leadTicks_le_length [a]
      have h2 : replaceTriple [a] = [a] := rfl
      rw [h2]
      simp at h
      omega⟩
  | [a, b] => ⟨rfl, Nat.le_refl _, by
      have h := leadTicks_le_length [a, b]
      have h2 : replaceTriple [a, b] = [a, b] := rfl
      rw [h2]
      simp at h
      omega⟩
  | a :: b :: c :: rest => by
    have hap : apostro ≠ btick := by decide
    by_cases htrip : (a = btick && b = btick && c = btick) = true
    · have heq : replaceTriple (a :: b :: c :: rest) =
          apostro :: apostro :: apostro :: replaceTriple rest := by
        rw [replaceTriple, if_pos htrip]
      rcases replaceTriple_spec rest with ⟨h1, _, _⟩
      refine ⟨?_, ?_, ?_⟩
      · rw [heq]
        exact noTriple_cons_of hap (noTriple_cons_of hap (noTriple_cons_of hap h1))
      · rw [heq, leadTicks_cons_ne hap]
        exact Nat.zero_le _
      · rw [heq, leadTicks_cons_ne hap]
        exact Nat.zero_le _
    · have heq : replaceTriple (a :: b :: c :: rest) =
          a :: replaceTriple (b :: c :: rest) := by
        rw [replaceTriple, if_neg htrip]
      rcases replaceTriple_spec (b :: c :: rest) with ⟨h1, h2, _⟩
      by_cases ha : a = btick
      · have hbc : leadTicks (b :: c :: rest) ≤ 1 := by
          by_cases hb : b = btick
          · by_cases hc : c = btick
            · exact absurd (by simp [ha, hb, hc]) htrip
            · subst hb
              rw [leadTicks_cons_tick, leadTicks_cons_ne hc]
          · rw [leadTicks_cons_ne hb]
            omega
        have hR1 : leadTicks (replaceTriple (b :: c :: rest)) ≤ 1 := le_trans h2 hbc
        subst ha
        refine ⟨?_, ?_, ?_⟩
        · rw [heq, noTriple_cons, h1, Bool.and_true]
          exact headWin_of_leadTicks hR1
        · rw [heq, leadTicks_cons_tick, leadTicks_cons_tick]
          omega
        · rw [heq, leadTicks_cons_tick]
          omega
      · refine ⟨?_, ?_, ?_⟩
        · rw [heq]
          exact noTriple_cons_of ha h1
        · rw [heq, leadTicks_cons_ne ha]
          exact Nat.zero_le _
        · rw [heq, leadTicks_cons_ne ha]
          exact Nat.zero_le _

theorem safe_line_split_noTriple {t : PyStr} (ht : noTriple t = true) (maxLen : Nat) :
    ∀ l ∈ safe_line_split t maxLen, noTriple l = true := fun l hl =>
  noTriple_within ht (safe_line_split_within t maxLen l hl)

/-! ## Structural facts about the packing steps -/

theorem fenceWrap_length (s : PyStr) : (fenceWrap s).length = s.length + 6 := by
  simp [fenceWrap]

theorem finalize_field_true {e : Embed} {buf : List PyStr} {e' : Embed}
    (h : finalize_field e buf = (e', true)) :
    e' = addField e (fenceWrap (joinNL buf)) ∧ embed_size e' ≤ 6000 := by
  unfold finalize_field at h
  dsimp only at h
  split at h
  · rename_i hle
    cases h
    exact ⟨rfl, hle⟩
  · simp at h

theorem finalize_field_false {e : Embed} {buf : List PyStr} {e' : Embed}
    (h : finalize_field e buf = (e', false)) : e' = e := by
  unfold finalize_field at h
  dsimp only at h
  split at h
  · simp at h
  · cases h
    rfl

theorem finalize_field_fst_of_snd_true {e : Embed} {buf : List PyStr}
    (h : (finalize_field e buf).2 = true) :
    (finalize_field e buf).1 = addField e (fenceWrap (joinNL buf)) ∧
    embed_size (finalize_field e buf).1 ≤ 6000 := by
  have hp : finalize_field e buf = ((finalize_field e buf).1, (finalize_field e buf).2) := rfl
  rw [h] at hp
  exact finalize_field_true hp

theorem finalize_field_fst_of_snd_false {e : Embed} {buf : List PyStr}
    (h : (finalize_field e buf).2 = false) :
    (finalize_field e buf).1 = e := by
  have hp : finalize_field e buf = ((finalize_field e buf).1, (finalize_field e buf).2) := rfl
  rw [h] at hp
  exact finalize_field_false hp

theorem push_current_embed_mem {embeds : List Embed} {cur e : Embed}
    (h : e ∈ push_current_embed embeds cur) :
    e ∈ embeds ∨ (e = cur ∧ embed_size cur ≤ 6000) := by
  unfold push_current_embed at h
  split at h
  · rename_i hg
    rcases List.mem_append.1 h with h1 | h1
    · exact Or.inl h1
    · exact Or.inr ⟨List.mem_singleton.1 h1, hg.2⟩
  · exact Or.inl h

theorem newEmbed_fields (n : PyStr) (u : Bool) : (newEmbed n u).1.fields = [] := by
  unfold newEmbed
  split <;> rfl

theorem tryAddBuffer_embeds_mem {name : PyStr} {embeds : List Embed} {cur : Embed}
    {u : Bool} {buf : List PyStr} {e : Embed}
    (h : e ∈ (tryAddBuffer name embeds cur u buf).1) :
    e ∈ embeds ∨ (e = cur ∧ embed_size cur ≤ 6000) := by
  unfold tryAddBuffer at h
  split at h
  · exact Or.inl h
  · exact push_current_embed_mem h

theorem tryAddBuffer_cur_fields (name : PyStr) (embeds : List Embed) (cur : Embed)
    (u : Bool) (buf : List PyStr) :
    (tryAddBuffer name embeds cur u buf).2.1.fields =
        cur.fields ++ [fenceWrap (joinNL buf)] ∨
      (tryAddBuffer name embeds cur u buf).2.1.fields = [] ∨
      (tryAddBuffer name embeds cur u buf).2.1.fields = [fenceWrap (joinNL buf)] := by
  unfold tryAddBuffer
  split
  · rename_i hflag
    left
    rw [(finalize_field_fst_of_snd_true hflag).1]
    rfl
  · rename_i hflag
    rw [Bool.not_eq_true] at hflag
    dsimp only
    rcases hb : (finalize_field (newEmbed name u).1 buf).2 with _ | _
    · right; left
      rw [finalize_field_fst_of_snd_false hb, newEmbed_fields]
    · right; right
      rw [(finalize_field_fst_of_snd_true hb).1]
      show ((newEmbed name u).1.fields ++ [fenceWrap (joinNL buf)]) = _
      rw [newEmbed_fields]
      rfl

/-! ## The capacity/size invariant is preserved by the packing loop -/

theorem tryAdd_embeds_props {F M : Nat} {name : PyStr} {embeds : List Embed} {cur : Embed}
    {u : Bool} {buf : List PyStr}
    (hemb : ∀ e ∈ embeds,
      embed_size e ≤ 6000 ∧ e.fields.length ≤ M ∧ ∀ v ∈ e.fields, v.length ≤ F + 6)
    (hcl : cur.fields.length < M)
    (hcv : ∀ v ∈ cur.fields, v.length ≤ F + 6) :
    ∀ e ∈ (tryAddBuffer name embeds cur u buf).1,
      embed_size e ≤ 6000 ∧ e.fields.length ≤ M ∧ ∀ v ∈ e.fields, v.length ≤ F + 6 := by
  intro e he
  rcases tryAddBuffer_embeds_mem he with h1 | ⟨rfl, hsz⟩
  · exact hemb e h1
  · exact ⟨hsz, Nat.le_of_lt hcl, hcv⟩

theorem tryAdd_cur_props {F M : Nat} (name : PyStr) (embeds : List Embed) (cur : Embed)
    (u : Bool) (buf : List PyStr)
    (hcl : cur.fields.length < M)
    (hcv : ∀ v ∈ cur.fields, v.length ≤ F + 6)
    (hbuf : (joinNL buf).length ≤ F) :
    (tryAddBuffer name embeds cur u buf).2.1.fields.length ≤ M ∧
    ∀ v ∈ (tryAddBuffer name embeds cur u buf).2.1.fields, v.length ≤ F + 6 := by
  have hvlen : (fenceWrap (joinNL buf)).length ≤ F + 6 := by
    rw [fenceWrap_length]
    omega
  rcases tryAddBuffer_cur_fields name embeds cur u buf with hf | hf | hf <;> rw [hf]
  · constructor
    · rw [List.length_append, List.length_singleton]
      omega
    · intro v hv
      rcases List.mem_append.1 hv with h1 | h1
      · exact hcv v h1
      · rcases List.mem_singleton.1 h1 with rfl
        exact hvlen
  · refine ⟨by simp, by simp⟩
  · constructor
    · simp
      omega
    · intro v hv
      rcases List.mem_singleton.1 hv with rfl
      exact hvlen

theorem MInv_step {F M : Nat} {name : PyStr} {st : BState} {line : PyStr}
    (hM : 1 ≤ M) (hL : line.length ≤ F) (h : MInv F M st) :
    MInv F M (stepLine name F M st line) := by
  unfold stepLine
  by_cases hC : F < (joinNL (st.buffer ++ [line])).length
  · rw [if_pos hC]
    by_cases hBe : st.buffer.isEmpty = true
    · exfalso
      rw [List.isEmpty_iff.1 hBe] at hC
      simp [joinNL] at hC
      omega
    · rw [if_neg hBe]
      dsimp only
      by_cases hMle : M ≤
          (tryAddBuffer name st.embeds st.current st.usedTitle st.buffer).2.1.fields.length
      · rw [if_pos hMle]
        dsimp only
        rw [if_neg (by rw [newEmbed_fields]; simp; omega)]
        refine { embeds_ok := ?_, cur_len := ?_, cur_vals := ?_, buf_join := ?_ }
        · intro e he
          rcases push_current_embed_mem he with h1 | ⟨rfl, hsz⟩
          · exact tryAdd_embeds_props h.embeds_ok h.cur_len h.cur_vals e h1
          · have hc := tryAdd_cur_props name st.embeds st.current st.usedTitle st.buffer
              h.cur_len h.cur_vals h.buf_join
            exact ⟨hsz, hc.1, hc.2⟩
        · rw [newEmbed_fields]
          simpa using hM
        · rw [newEmbed_fields]
          intro v hv
          simp at hv
        · show (joinNL ([] ++ [line])).length ≤ F
          simpa [joinNL] using hL
      · rw [if_neg hMle]
        dsimp only
        rw [if_neg hMle]
        refine { embeds_ok := ?_, cur_len := ?_, cur_vals := ?_, buf_join := ?_ }
        · exact tryAdd_embeds_props h.embeds_ok h.cur_len h.cur_vals
        · exact Nat.lt_of_not_le hMle
        · exact (tryAdd_cur_props name st.embeds st.current st.usedTitle st.buffer
            h.cur_len h.cur_vals h.buf_join).2
        · show (joinNL ([] ++ [line])).length ≤ F
          simpa [joinNL] using hL
  · rw [if_neg hC]
    dsimp only
    rw [if_neg (Nat.not_le.2 h.cur_len)]
    exact { embeds_ok := h.embeds_ok, cur_len := h.cur_len, cur_vals := h.cur_vals,
            buf_join := Nat.le_of_not_lt hC }

theorem MInv_fold {F M : Nat} {name : PyStr} (hM : 1 ≤ M) :
    ∀ (lines : List PyStr) (st : BState), (∀ l ∈ lines, l.length ≤ F) → MInv F M st →
      MInv F M (lines.foldl (stepLine name F M) st)
  | [], _, _, h => h
  | l :: ls, st, hl, h => by
    rw [List.foldl_cons]
    exact MInv_fold hM ls _ (fun x hx => hl x (List.mem_cons_of_mem l hx))
      (MInv_step hM (hl l (List.mem_cons_self l ls)) h)

theorem build_embeds_core_props {F M : Nat} (hM : 1 ≤ M)
    (name : PyStr) (lines : List PyStr)
    (hlshort : ∀ l ∈ lines, l.length ≤ F) :
    ∀ e ∈ build_embeds_core name lines F M,
      embed_size e ≤ 6000 ∧ e.fields.length ≤ M ∧ ∀ v ∈ e.fields, v.length ≤ F + 6 := by
  intro e he
  unfold build_embeds_core at he
  dsimp only at he
  have hst0 : MInv F M
      { embeds := [], current := { blueEmbed with title := some name },
        usedTitle := true, buffer := [], fieldsInCurrent := 0 } := by
    refine { embeds_ok := by simp, cur_len := ?_, cur_vals := by simp [blueEmbed],
             buf_join := by simp [joinNL] }
    show ([] : List PyStr).length < M
    simpa using hM
  have hfold := @MInv_fold F M name hM lines _ hlshort hst0
  set stF := lines.foldl
    (stepLine name F M)
    { embeds := [], current := { blueEmbed with title := some name },
      usedTitle := true, buffer := [], fieldsInCurrent := 0 } with hstF
  by_cases hBe : stF.buffer.isEmpty = true
  · rw [if_pos hBe] at he
    split at he
    · rename_i hg
      rcases List.mem_append.1 he with h1 | h1
      · exact hfold.embeds_ok e h1
      · rcases List.mem_singleton.1 h1 with rfl
        exact ⟨hg.2, Nat.le_of_lt hfold.cur_len, hfold.cur_vals⟩
    · exact hfold.embeds_ok e he
  · rw [if_neg hBe] at he
    dsimp only at he
    have hcur := tryAdd_cur_props name stF.embeds stF.current stF.usedTitle stF.buffer
      hfold.cur_len hfold.cur_vals hfold.buf_join
    split at he
    · rename_i hg
      rcases List.mem_append.1 he with h1 | h1
      · exact tryAdd_embeds_props hfold.embeds_ok hfold.cur_len hfold.cur_vals e h1
      · rcases List.mem_singleton.1 h1 with rfl
        exact ⟨hg.2, hcur.1, hcur.2⟩
    · exact tryAdd_embeds_props hfold.embeds_ok hfold.cur_len hfold.cur_vals e he

theorem build_embeds_props {L F M : Nat} (hL0 : 0 < L) (hLF : L ≤ F) (hM : 1 ≤ M)
    (name content : PyStr) :
    ∀ e ∈ build_embeds_for_section name content L F M,
      embed_size e ≤ 6000 ∧ e.fields.length ≤ M ∧ ∀ v ∈ e.fields, v.length ≤ F + 6 := by
  intro e he
  unfold build_embeds_for_section at he
  by_cases hE : (pyStrip content).isEmpty = true
  · rw [if_pos hE] at he
    simp at he
  · rw [if_neg hE] at he
    exact build_embeds_core_props hM name _
      (fun l hl => le_trans (safe_line_split_short hL0 _ l hl) hLF) e he

/-! ## The fencing invariant is preserved by the packing loop -/

theorem fenced_tryAdd_embeds {name : PyStr} {embeds : List Embed} {cur : Embed}
    {u : Bool} {buf : List PyStr}
    (hemb : ∀ e ∈ embeds, ∀ v ∈ e.fields, fencedOK v)
    (hcur : ∀ v ∈ cur.fields, fencedOK v) :
    ∀ e ∈ (tryAddBuffer name embeds cur u buf).1, ∀ v ∈ e.fields, fencedOK v := by
  intro e he
  rcases tryAddBuffer_embeds_mem he with h1 | ⟨rfl, _⟩
  · exact hemb e h1
  · exact hcur

theorem fenced_tryAdd_cur {name : PyStr} {embeds : List Embed} {cur : Embed}
    {u : Bool} {buf : List PyStr}
    (hcur : ∀ v ∈ cur.fields, fencedOK v)
    (hbuf : ∀ l ∈ buf, noTriple l = true) :
    ∀ v ∈ (tryAddBuffer name embeds cur u buf).2.1.fields, fencedOK v := by
  have hnew : fencedOK (fenceWrap (joinNL buf)) := ⟨joinNL buf, rfl, noTriple_joinNL hbuf⟩
  rcases tryAddBuffer_cur_fields name embeds cur u buf with hf | hf | hf <;> rw [hf]
  · intro v hv
    rcases List.mem_append.1 hv with h1 | h1
    · exact hcur v h1
    · rcases List.mem_singleton.1 h1 with rfl
      exact hnew
  · simp
  · intro v hv
    rcases List.mem_singleton.1 hv with rfl
    exact hnew

theorem FInv_branchB {name : PyStr} {M : Nat} {s : BState} (h : FInv s) :
    FInv (if M ≤ s.current.fields.length then
        (let st3 :=
          if s.buffer.isEmpty then s
          else
            let r := tryAddBuffer name s.embeds s.current s.usedTitle s.buffer
            { embeds := r.1, current := r.2.1, usedTitle := r.2.2,
              buffer := [], fieldsInCurrent := r.2.1.fields.length }
        if M ≤ st3.current.fields.length then
          { embeds := push_current_embed st3.embeds st3.current,
            current := (newEmbed name st3.usedTitle).1,
            usedTitle := (newEmbed name st3.usedTitle).2,
            buffer := st3.buffer, fieldsInCurrent := st3.fieldsInCurrent }
        else st3)
      else s) := by
  by_cases hD : M ≤ s.current.fields.length
  · rw [if_pos hD]
    by_cases hBe : s.buffer.isEmpty = true
    · rw [if_pos hBe]
      by_cases hD2 : M ≤ s.current.fields.length
      · rw [if_pos hD2]
        refine { embeds_f := ?_, cur_f := ?_, buf_t := h.buf_t }
        · intro e he
          rcases push_current_embed_mem he with h1 | ⟨rfl, _⟩
          · exact h.embeds_f e h1
          · exact h.cur_f
        · rw [newEmbed_fields]
          intro v hv
          simp at hv
      · rw [if_neg hD2]
        exact h
    · rw [if_neg hBe]
      dsimp only
      have hF3 : FInv
          { embeds := (tryAddBuffer name s.embeds s.current s.usedTitle s.buffer).1,
            current := (tryAddBuffer name s.embeds s.current s.usedTitle s.buffer).2.1,
            usedTitle := (tryAddBuffer name s.embeds s.current s.usedTitle s.buffer).2.2,
            buffer := [],
            fieldsInCurrent :=
              (tryAddBuffer name s.embeds s.current s.usedTitle s.buffer).2.1.fields.length } := by
        refine { embeds_f := ?_, cur_f := ?_, buf_t := by simp }
        · exact fenced_tryAdd_embeds h.embeds_f h.cur_f
        · exact fenced_tryAdd_cur h.cur_f h.buf_t
      by_cases hD2 : M ≤
          (tryAddBuffer name s.embeds s.current s.usedTitle s.buffer).2.1.fields.length
      · rw [if_pos hD2]
        refine { embeds_f := ?_, cur_f := ?_, buf_t := hF3.buf_t }
        · intro e he
          rcases push_current_embed_mem he with h1 | ⟨rfl, _⟩
          · exact hF3.embeds_f e h1
          · exact hF3.cur_f
        · rw [newEmbed_fields]
          intro v hv
          simp at hv
      · rw [if_neg hD2]
        exact hF3
  · rw [if_neg hD]
    exact h

theorem FInv_step {name : PyStr} {F M : Nat} {st : BState} {line : PyStr}
    (hT : noTriple line = true) (h : FInv st) :
    FInv (stepLine name F M st line) := by
  have hbufline : ∀ l ∈ st.buffer ++ [line], noTriple l = true := by
    intro l hl
    rcases List.mem_append.1 hl with h1 | h1
    · exact h.buf_t l h1
    · rcases List.mem_singleton.1 h1 with rfl
      exact hT
  have honlyline : ∀ l ∈ ([] : List PyStr) ++ [line], noTriple l = true := by
    intro l hl
    rcases List.mem_append.1 hl with h1 | h1
    · simp at h1
    · rcases List.mem_singleton.1 h1 with rfl
      exact hT
  have hpushmem : ∀ e ∈ push_current_embed st.embeds st.current, ∀ v ∈ e.fields, fencedOK v := by
    intro e he
    rcases push_current_embed_mem he with h1 | ⟨rfl, _⟩
    · exact h.embeds_f e h1
    · exact h.cur_f
  have hnewcur : ∀ v ∈ (newEmbed name st.usedTitle).1.fields, fencedOK v := by
    rw [newEmbed_fields]
    intro v hv
    simp at hv
  unfold stepLine
  by_cases hC : F < (joinNL (st.buffer ++ [line])).length
  · rw [if_pos hC]
    by_cases hBe : st.buffer.isEmpty = true
    · rw [if_pos hBe]
      by_cases hMle : M ≤ st.fieldsInCurrent
      · rw [if_pos hMle]
        exact @FInv_branchB name M
          ({ embeds := push_current_embed st.embeds st.current,
                  current := (newEmbed name st.usedTitle).1,
                  usedTitle := (newEmbed name st.usedTitle).2,
                  buffer := st.buffer ++ [line], fieldsInCurrent := 0 })
          { embeds_f := hpushmem, cur_f := hnewcur, buf_t := hbufline }
      · rw [if_neg hMle]
        exact @FInv_branchB name M
          ({ embeds := st.embeds, current := st.current,
                  usedTitle := st.usedTitle,
                  buffer := st.buffer ++ [line], fieldsInCurrent := st.fieldsInCurrent })
          { embeds_f := h.embeds_f, cur_f := h.cur_f, buf_t := hbufline }
    · rw [if_neg hBe]
      have hemb1 := @fenced_tryAdd_embeds name st.embeds st.current st.usedTitle
        st.buffer h.embeds_f h.cur_f
      have hcur1 := @fenced_tryAdd_cur name st.embeds st.current st.usedTitle
        st.buffer h.cur_f h.buf_t
      have hpush1 : ∀ e ∈ push_current_embed
            (tryAddBuffer name st.embeds st.current st.usedTitle st.buffer).1
            (tryAddBuffer name st.embeds st.current st.usedTitle st.buffer).2.1,
          ∀ v ∈ e.fields, fencedOK v := by
        intro e he
        rcases push_current_embed_mem he with h1 | ⟨rfl, _⟩
        · exact hemb1 e h1
        · exact hcur1
      by_cases hMle : M ≤
          (tryAddBuffer name st.embeds st.current st.usedTitle st.buffer).2.1.fields.length
      · rw [if_pos hMle]
        refine @FInv_branchB name M
          ({ embeds := push_current_embed
                    (tryAddBuffer name st.embeds st.current st.usedTitle st.buffer).1
                    (tryAddBuffer name st.embeds st.current st.usedTitle st.buffer).2.1,
                  current := (newEmbed name
                    (tryAddBuffer name st.embeds st.current st.usedTitle st.buffer).2.2).1,
                  usedTitle := (newEmbed name
                    (tryAddBuffer name st.embeds st.current st.usedTitle st.buffer).2.2).2,
                  buffer := [] ++ [line], fieldsInCurrent := 0 })
          { embeds_f := hpush1, cur_f := ?_, buf_t := honlyline }
        rw [newEmbed_fields]
        intro v hv
        simp at hv
      · rw [if_neg hMle]
        exact @FInv_branchB name M
          ({ embeds := (tryAddBuffer name st.embeds st.current st.usedTitle st.buffer).1,
                  current := (tryAddBuffer name st.embeds st.current st.usedTitle st.buffer).2.1,
                  usedTitle := (tryAddBuffer name st.embeds st.current st.usedTitle st.buffer).2.2,
                  buffer := [] ++ [line],
                  fieldsInCurrent := (tryAddBuffer name st.embeds st.current st.usedTitle
                    st.buffer).2.1.fields.length })
          { embeds_f := hemb1, cur_f := hcur1, buf_t := honlyline }
  · rw [if_neg hC]
    exact @FInv_branchB name M
      ({ embeds := st.embeds, current := st.current, usedTitle := st.usedTitle,
              buffer := st.buffer ++ [line], fieldsInCurrent := st.fieldsInCurrent })
      { embeds_f := h.embeds_f, cur_f := h.cur_f, buf_t := hbufline }

theorem FInv_fold {F M : Nat} {name : PyStr} :
    ∀ (lines : List PyStr) (st : BState), (∀ l ∈ lines, noTriple l = true) → FInv st →
      FInv (lines.foldl (stepLine name F M) st)
  | [], _, _, h => h
  | l :: ls, st, hl, h => by
    rw [List.foldl_cons]
    exact FInv_fold ls _ (fun x hx => hl x (List.mem_cons_of_mem l hx))
      (FInv_step (hl l (List.mem_cons_self l ls)) h)

theorem build_embeds_core_fenced {F M : Nat} (name : PyStr) (lines : List PyStr)
    (hlt : ∀ l ∈ lines, noTriple l = true) :
    ∀ e ∈ build_embeds_core name lines F M, ∀ v ∈ e.fields, fencedOK v := by
  intro e he
  unfold build_embeds_core at he
  dsimp only at he
  have hst0 : FInv
      { embeds := [], current := { blueEmbed with title := some name },
        usedTitle := true, buffer := [], fieldsInCurrent := 0 } := by
    refine { embeds_f := by simp, cur_f := by simp [blueEmbed], buf_t := by simp }
  have hfold := @FInv_fold F M name lines _ hlt hst0
  set stF := lines.foldl
    (stepLine name F M)
    { embeds := [], current := { blueEmbed with title := some name },
      usedTitle := true, buffer := [], fieldsInCurrent := 0 } with hstF
  by_cases hBe : stF.buffer.isEmpty = true
  · rw [if_pos hBe] at he
    split at he
    · rcases List.mem_append.1 he with h1 | h1
      · exact hfold.embeds_f e h1
      · rcases List.mem_singleton.1 h1 with rfl
        exact hfold.cur_f
    · exact hfold.embeds_f e he
  · rw [if_neg hBe] at he
    dsimp only at he
    split at he
    · rcases List.mem_append.1 he with h1 | h1
      · exact fenced_tryAdd_embeds hfold.embeds_f hfold.cur_f e h1
      · rcases List.mem_singleton.1 h1 with rfl
        exact fenced_tryAdd_cur hfold.cur_f hfold.buf_t
    · exact fenced_tryAdd_embeds hfold.embeds_f hfold.cur_f e he

theorem build_embeds_fenced {L F M : Nat} (name content : PyStr) :
    ∀ e ∈ build_embeds_for_section name content L F M, ∀ v ∈ e.fields, fencedOK v := by
  intro e he
  unfold build_embeds_for_section at he
  by_cases hE : (pyStrip content).isEmpty = true
  · rw [if_pos hE] at he
    simp at he
  · rw [if_neg hE] at he
    exact build_embeds_core_fenced name _
      (safe_line_split_noTriple (replaceTriple_spec (pyStrip content)).1 L) e he

/-! ## Chunking facts -/

theorem chunk_embeds_nil (k : Nat) : chunk_embeds [] k = [] := rfl

theorem chunk_embedsGo_fuel : ∀ (l : List Embed) (f1 f2 k : Nat),
    l.length ≤ f1 → l.length ≤ f2 → chunk_embedsGo l k f1 = chunk_embedsGo l k f2 := by
  intro l f1
  induction f1 generalizing l with
  | zero =>
    intro f2 k h1 h2
    cases l with
    | nil => cases f2 <;> cases k <;> rfl
    | cons a t => simp at h1
  | succ f1 ih =>
    intro f2 k h1 h2
    cases l with
    | nil => cases f2 <;> cases k <;> rfl
    | cons a t =>
      cases k with
      | zero => cases f2 <;> rfl
      | succ n =>
        cases f2 with
        | zero => simp at h2
        | succ g2 =>
          show ((a :: t).take (n+1)) :: chunk_embedsGo ((a :: t).drop (n+1)) (n+1) f1
             = ((a :: t).take (n+1)) :: chunk_embedsGo ((a :: t).drop (n+1)) (n+1) g2
          congr 1
          refine ih _ g2 (n+1) ?_ ?_
          · simp only [List.length_drop, List.length_cons]
            simp only [List.length_cons] at h1
            omega
          · simp only [List.length_drop, List.length_cons]
            simp only [List.length_cons] at h2
            omega

theorem chunk_embeds_cons (a : Embed) (l : List Embed) (n : Nat) :
    chunk_embeds (a :: l) (n+1) =
      ((a :: l).take (n+1)) :: chunk_embeds ((a :: l).drop (n+1)) (n+1) := by
  show ((a :: l).take (n+1)) :: chunk_embedsGo ((a :: l).drop (n+1)) (n+1) l.length
     = ((a :: l).take (n+1)) :: chunk_embedsGo ((a :: l).drop (n+1)) (n+1) ((a :: l).drop (n+1)).length
  congr 1
  refine chunk_embedsGo_fuel _ _ _ _ ?_ (Nat.le_refl _)
  simp only [List.length_drop, List.length_cons]
  omega

theorem chunk_embeds_flatten : ∀ (n : Nat) (l : List Embed),
    (chunk_embeds l (n+1)).flatten = l
  | _, [] => by rw [chunk_embeds_nil]; rfl
  | n, a :: l => by
    rw [chunk_embeds_cons, List.flatten_cons,
      chunk_embeds_flatten n ((a :: l).drop (n+1))]
    exact List.take_append_drop (n+1) (a :: l)
  termination_by _ l => l.length
  decreasing_by
    simp only [List.length_drop, List.length_cons]
    omega

theorem chunk_embeds_page_le : ∀ (n : Nat) (l : List Embed),
    ∀ p ∈ chunk_embeds l (n+1), p.length ≤ n + 1
  | _, [] => by rw [chunk_embeds_nil]; simp
  | n, a :: l => by
    rw [chunk_embeds_cons]
    intro p hp
    rcases List.mem_cons.1 hp with rfl | hp'
    · rw [List.length_take]
      exact Nat.min_le_left _ _
    · exact chunk_embeds_page_le n ((a :: l).drop (n+1)) p hp'
  termination_by _ l => l.length
  decreasing_by
    simp only [List.length_drop, List.length_cons]
    omega

theorem chunk_embeds_ne_nil {l : List Embed} (h : l ≠ []) (n : Nat) :
    chunk_embeds l (n+1) ≠ [] := by
  rcases l with _ | ⟨a, t⟩
  · exact absurd rfl h
  · rw [chunk_embeds_cons]
    simp

theorem chunk_embeds_full_pages : ∀ (n : Nat) (l : List Embed) (i : Nat),
    i + 1 < (chunk_embeds l (n+1)).length →
    ((chunk_embeds l (n+1)).getD i []).length = n + 1
  | n, [], i, h => by
    rw [chunk_embeds_nil] at h
    simp at h
  | n, a :: l, 0, h => by
    rw [chunk_embeds_cons] at h ⊢
    have hne : chunk_embeds ((a :: l).drop (n+1)) (n+1) ≠ [] := by
      intro hnil
      rw [hnil] at h
      simp at h
    have hdrop : (a :: l).drop (n+1) ≠ [] := by
      intro hnil
      rw [hnil, chunk_embeds_nil] at hne
      exact hne rfl
    have hlen : n + 1 < (a :: l).length := by
      by_contra hc
      exact hdrop (List.drop_eq_nil_of_le (Nat.le_of_not_lt hc))
    rw [List.getD_cons_zero, List.length_take]
    omega
  | n, a :: l, i + 1, h => by
    rw [chunk_embeds_cons] at h ⊢
    rw [List.getD_cons_succ]
    have h' : i + 1 < (chunk_embeds ((a :: l).drop (n+1)) (n+1)).length := by
      simpa using h
    exact chunk_embeds_full_pages n ((a :: l).drop (n+1)) i h'
  termination_by _ l => l.length
  decreasing_by
    all_goals simp only [List.length_drop, List.length_cons]
    all_goals omega

/-! ## `build_pages` helpers -/

theorem build_embeds_strip_empty {content : PyStr} (h : pyStrip content = [])
    (name : PyStr) (L F M : Nat) :
    build_embeds_for_section name content L F M = [] := by
  unfold build_embeds_for_section
  rw [h]
  rfl

theorem build_pages_all_empty {e s m : PyStr} (he : pyStrip e = [])
    (hs : pyStrip s = []) (hm : pyStrip m = []) :
    build_pages e s m = [[noDataEmbed]] := by
  unfold build_pages
  rw [build_embeds_strip_empty he, build_embeds_strip_empty hs,
    build_embeds_strip_empty hm]
  rfl

theorem build_pages_mem_embeds {e s m : PyStr} {page : List Embed} {emb : Embed}
    (hp : page ∈ build_pages e s m) (he : emb ∈ page) :
    emb = noDataEmbed ∨
      emb ∈ build_embeds_for_section (pystr "Exception") e 80 900 5 ∨
      emb ∈ build_embeds_for_section (pystr "Enhanced Stacktrace") s 80 900 5 ∨
      emb ∈ build_embeds_for_section (pystr "Installed Modules") m 80 900 5 := by
  unfold build_pages at hp
  dsimp only at hp
  split at hp
  · rcases List.mem_singleton.1 hp with rfl
    rcases List.mem_singleton.1 he with rfl
    exact Or.inl rfl
  · have hin : emb ∈ build_embeds_for_section (pystr "Exception") e 80 900 5 ++
        build_embeds_for_section (pystr "Enhanced Stacktrace") s 80 900 5 ++
        build_embeds_for_section (pystr "Installed Modules") m 80 900 5 := by
      have hfl := chunk_embeds_flatten 9
        (build_embeds_for_section (pystr "Exception") e 80 900 5 ++
          build_embeds_for_section (pystr "Enhanced Stacktrace") s 80 900 5 ++
          build_embeds_for_section (pystr "Installed Modules") m 80 900 5)
      rw [← hfl]
      exact List.mem_flatten.2 ⟨page, hp, he⟩
    rcases List.mem_append.1 hin with h1 | h1
    · rcases List.mem_append.1 h1 with h2 | h2
      · exact Or.inr (Or.inl h2)
      · exact Or.inr (Or.inr (Or.inl h2))
    · exact Or.inr (Or.inr (Or.inr h1))

/-! ## Section bodies end only at genuine header stops -/

theorem bodyFrom_no_internal_stop : ∀ (s : PyStr) (i : Nat), 1 ≤ i →
    i < (bodyFrom s).length → stopLookahead (List.drop i s) = false
  | [], _, _, h2 => by simp [bodyFrom] at h2
  | _ :: _, 0, h1, _ => by omega
  | c :: rest, 1, _, h2 => by
    by_cases hstop : stopLookahead rest = true
    · exfalso
      rw [bodyFrom, if_pos hstop] at h2
      simp at h2
    · rw [List.drop_succ_cons, List.drop_zero]
      cases hb : stopLookahead rest with
      | true => exact absurd hb hstop
      | false => rfl
  | c :: rest, i + 2, h1, h2 => by
    have hstop : stopLookahead rest = false := by
      by_cases hs : stopLookahead rest = true
      · exfalso
        rw [bodyFrom, if_pos hs] at h2
        simp at h2
      · cases hb : stopLookahead rest with
        | true => exact absurd hb hs
        | false => rfl
    rw [bodyFrom, if_neg (by simp [hstop])] at h2
    rw [List.drop_succ_cons]
    refine bodyFrom_no_internal_stop rest (i + 1) (by omega) ?_
    simp at h2
    omega

theorem bodyFrom_ends_at_stop : ∀ (s : PyStr), s ≠ [] →
    List.drop (bodyFrom s).length s = [] ∨
      stopLookahead (List.drop (bodyFrom s).length s) = true
  | [], h => absurd rfl h
  | c :: rest, _ => by
    by_cases hstop : stopLookahead rest = true
    · right
      rw [bodyFrom, if_pos hstop]
      simpa [List.drop_succ_cons] using hstop
    · rw [bodyFrom, if_neg hstop]
      rcases eq_or_ne rest [] with rfl | hne
      · left
        simp [bodyFrom]
      · have h := bodyFrom_ends_at_stop rest hne
        simpa [List.length_cons, List.drop_succ_cons] using h

theorem tryLabelAt_ne_nil {label s t : PyStr} (h : tryLabelAt label s = some t) :
    t ≠ [] := by
  unfold tryLabelAt at h
  split at h
  next => simp at h
  next m rest =>
    split at h
    case isFalse => simp at h
    case isTrue =>
      split at h
      next => simp at h
      next afterLabel heq =>
        split at h
        next => simp at h
        next a as =>
          split at h
          case isFalse => simp at h
          case isTrue =>
            dsimp only at h
            by_cases hemp : (List.dropWhile pyIsSpace (a :: as)).isEmpty = true
            · rw [if_pos hemp] at h
              by_cases hlen : 2 ≤ (a :: as).length
              · rw [if_pos hlen] at h
                cases h
                intro hnil
                have hl := congrArg List.length hnil
                rw [List.length_drop] at hl
                simp at hl
              · rw [if_neg hlen] at h
                simp at h
            · rw [if_neg hemp] at h
              cases h
              intro hnil
              rw [hnil] at hemp
              simp at hemp

theorem searchLabel_some_ne_nil {label : PyStr} : ∀ {doc t : PyStr},
    searchLabel label doc = some t → t ≠ []
  | [], t, h => by simp [searchLabel] at h
  | c :: rest, t, h => by
    rw [searchLabel] at h
    split at h
    · rename_i heq
      cases h
      exact tryLabelAt_ne_nil heq
    · exact searchLabel_some_ne_nil h

theorem extractBody_of_search {label doc t : PyStr} (h : searchLabel label doc = some t) :
    extractBody label doc = pyStrip (bodyFrom t) := by
  unfold extractBody
  rw [h]

theorem extractBody_of_none {label doc : PyStr} (h : searchLabel label doc = none) :
    extractBody label doc = [] := by
  unfold extractBody
  rw [h]

/-! ## takeWhile/dropWhile bridging lemmas -/

theorem takeWhile_congr_mem {p q : Char → Bool} : ∀ {l : PyStr},
    (∀ c ∈ l, p c = q c) → l.takeWhile p = l.takeWhile q
  | [], _ => rfl
  | a :: l, h => by
    have ha := h a (by simp)
    rw [List.takeWhile_cons, List.takeWhile_cons, ha]
    split
    · rw [takeWhile_congr_mem fun c hc => h c (List.mem_cons_of_mem a hc)]
    · rfl

theorem dropWhile_congr_mem {p q : Char → Bool} : ∀ {l : PyStr},
    (∀ c ∈ l, p c = q c) → l.dropWhile p = l.dropWhile q
  | [], _ => rfl
  | a :: l, h => by
    have ha := h a (by simp)
    rw [List.dropWhile_cons, List.dropWhile_cons, ha]
    split
    · rw [dropWhile_congr_mem fun c hc => h c (List.mem_cons_of_mem a hc)]
    · rfl

theorem takeWhile_append_stop {p : Char → Bool} {c₀ : Char} (h : p c₀ = false) :
    ∀ (xs ys : PyStr), (xs ++ c₀ :: ys).takeWhile p = xs.takeWhile p
  | [], ys => by simp [List.takeWhile_cons, h]
  | a :: xs, ys => by
    rw [List.cons_append, List.takeWhile_cons, List.takeWhile_cons]
    split
    · rw [takeWhile_append_stop h xs ys]
    · rfl

theorem dropWhile_append_stop {p : Char → Bool} {c₀ : Char} (h : p c₀ = false) :
    ∀ (xs ys : PyStr), (xs ++ c₀ :: ys).dropWhile p = xs.dropWhile p ++ c₀ :: ys
  | [], ys => by simp [List.dropWhile_cons, h]
  | a :: xs, ys => by
    rw [List.cons_append, List.dropWhile_cons, List.dropWhile_cons]
    split
    · rw [dropWhile_append_stop h xs ys]
    · rfl

theorem dropWhile_append_of_ne_nil {p : Char → Bool} :
    ∀ {xs : PyStr}, xs.dropWhile p ≠ [] → ∀ (ys : PyStr),
      (xs ++ ys).dropWhile p = xs.dropWhile p ++ ys
  | [], h, _ => absurd rfl h
  | a :: xs, h, ys => by
    rw [List.cons_append, List.dropWhile_cons]
    rw [List.dropWhile_cons] at h ⊢
    split
    · rename_i hp
      rw [if_pos hp] at h
      exact dropWhile_append_of_ne_nil h ys
    · rfl

theorem dropWhile_head_not {p : Char → Bool} : ∀ {l : PyStr} {d : Char} {ds : PyStr},
    l.dropWhile p = d :: ds → p d = false
  | [], _, _, h => by simp at h
  | a :: l, d, ds, h => by
    rw [List.dropWhile_cons] at h
    split at h
    · exact dropWhile_head_not h
    · rename_i hp
      cases h
      cases hpa : p a with
      | true => exact absurd hpa hp
      | false => rfl

theorem dropWhile_sub {p : Char → Bool} : ∀ {l : PyStr} {x : Char},
    x ∈ l.dropWhile p → x ∈ l
  | [], _, h => by simp at h
  | a :: l, x, h => by
    rw [List.dropWhile_cons] at h
    split at h
    · exact List.mem_cons_of_mem a (dropWhile_sub h)
    · exact h

/-! ## `splitNl` decomposition -/

theorem splitNl_no_nl : ∀ {L : PyStr}, (∀ c ∈ L, c ≠ '\n') → splitNl L = [L]
  | [], _ => rfl
  | c :: L, h => by
    rw [splitNl]
    rw [if_neg (by simpa using h c (by simp))]
    rw [splitNl_no_nl fun x hx => h x (List.mem_cons_of_mem c hx)]

theorem splitNl_append : ∀ (L R : PyStr), (∀ c ∈ L, c ≠ '\n') →
    splitNl (L ++ '\n' :: R) = L :: splitNl R
  | [], R, _ => by
    rw [List.nil_append, splitNl, if_pos rfl]
  | c :: L, R, h => by
    rw [List.cons_append, splitNl]
    rw [if_neg (by simpa using h c (by simp))]
    rw [splitNl_append L R fun x hx => h x (List.mem_cons_of_mem c hx)]

/-! ## Scanner stepping lemmas -/

theorem scanMods_cons_false (c : Char) (rest : PyStr) :
    scanMods (c :: rest) false = scanMods rest (decide (c = '\n')) := by
  rw [scanMods]
  simp

theorem scanMods_skip : ∀ (s : PyStr), (∀ c ∈ s, c ≠ '\n') → ∀ t : PyStr,
    scanMods (s ++ t) false = scanMods t false
  | [], _, t => rfl
  | c :: s, h, t => by
    rw [List.cons_append, scanMods_cons_false,
      decide_eq_false (h c (by simp))]
    exact scanMods_skip s (fun x hx => h x (List.mem_cons_of_mem c hx)) t

theorem scanMods_nl_false (t : PyStr) : scanMods ('\n' :: t) false = scanMods t true := by
  rw [scanMods_cons_false]
  simp

theorem tryModMatch_no_marker {m : Char} (hm : (m = '+' || m = '-') = false) :
    ∀ (u : PyStr), tryModMatch (m :: u) = none
  | [] => rfl
  | a :: u => by
    unfold tryModMatch
    dsimp only
    rw [if_neg]
    intro hcontra
    rw [Bool.and_eq_true] at hcontra
    rw [hcontra.1] at hm
    simp at hm

theorem tryModMatch_no_ws {m a : Char} (ha : pyIsSpace a = false) (u : PyStr) :
    tryModMatch (m :: a :: u) = none := by
  unfold tryModMatch
  dsimp only
  rw [if_neg]
  intro hcontra
  rw [Bool.and_eq_true] at hcontra
  rw [hcontra.2] at ha
  simp at ha

theorem scanMods_cons_true_none {c : Char} {rest : PyStr}
    (h : tryModMatch (c :: rest) = none) :
    scanMods (c :: rest) true = scanMods rest (decide (c = '\n')) := by
  rw [scanMods]
  simp only [if_true]
  split
  · rename_i grp s' heq
    rw [h] at heq
    cases heq
  · rfl

theorem scanMods_cons_true_some {c : Char} {rest grp s' : PyStr}
    (h : tryModMatch (c :: rest) = some (grp, s')) :
    scanMods (c :: rest) true = grp :: scanMods s' false := by
  rw [scanMods]
  simp only [if_true]
  split
  · rename_i grp2 s2 heq
    rw [h] at heq
    cases heq
    rfl
  · rename_i heq
    rw [h] at heq
    cases heq

theorem scanMods_nl_true (t : PyStr) : scanMods ('\n' :: t) true = scanMods t true := by
  rw [scanMods_cons_true_none (tryModMatch_no_marker (by decide) t)]
  simp

/-! ## Per-line behaviour of the module-line scanner -/

theorem tryModMatch_match {m a : Char} {ls : PyStr}
    (hmk : (m = '+' || m = '-') = true) (hws : pyIsSpace a = true) :
    tryModMatch (m :: a :: ls) =
      (let afterWs := (a :: ls).dropWhile pyIsSpace
       let grp := afterWs.takeWhile (fun c => c ≠ '(' && c ≠ '\n')
       let after := afterWs.dropWhile (fun c => c ≠ '(' && c ≠ '\n')
       if after.head? = some '(' then some (grp, after.tail) else some (grp, after)) := by
  unfold tryModMatch
  dsimp only
  rw [if_pos (by simp [hmk, hws])]

theorem rawLineEntry_none_of_no_marker {m : Char} (hmk : (m = '+' || m = '-') = false) :
    ∀ rest : PyStr, rawLineEntry (m :: rest) = none
  | [] => rfl
  | a :: ls => by
    unfold rawLineEntry
    dsimp only
    rw [if_neg (by simp [hmk])]

theorem rawLineEntry_none_of_no_ws {m a : Char} (ha : pyIsSpace a = false) (ls : PyStr) :
    rawLineEntry (m :: a :: ls) = none := by
  unfold rawLineEntry
  dsimp only
  rw [if_neg (by simp [ha])]

theorem rawLineEntry_some {m a : Char} {ls : PyStr}
    (hmk : (m = '+' || m = '-') = true) (hws : pyIsSpace a = true)
    (hcontent : (a :: ls).dropWhile pyIsSpace ≠ []) :
    rawLineEntry (m :: a :: ls) =
      some (((a :: ls).dropWhile pyIsSpace).takeWhile (· ≠ '(')) := by
  unfold rawLineEntry
  dsimp only
  rw [if_pos (by simp [hmk, hws]), if_neg (by simpa using hcontent)]

theorem markerWsOnly_false_content {m a : Char} {ls : PyStr}
    (hmk : (m = '+' || m = '-') = true)
    (h2 : markerWsOnlyLine (m :: a :: ls) = false) :
    (a :: ls).dropWhile pyIsSpace ≠ [] := by
  intro hnil
  have hall : ∀ x ∈ a :: ls, pyIsSpace x = true := List.dropWhile_eq_nil_iff.1 hnil
  have ht : markerWsOnlyLine (m :: a :: ls) = true := by
    unfold markerWsOnlyLine
    dsimp only
    rw [hmk, Bool.true_and, List.all_eq_true]
    simpa using hall
  rw [ht] at h2
  cases h2

theorem scan_line_cons : ∀ (L R : PyStr), (∀ c ∈ L, c ≠ '\n') →
    markerWsOnlyLine L = false →
    scanMods (L ++ '\n' :: R) true =
      (match rawLineEntry L with
       | some g => g :: scanMods R true
       | none => scanMods R true)
  | [], R, _, _ => by
    rw [List.nil_append, scanMods_nl_true]
    rfl
  | [m], R, hnf, h2 => by
    have hmk : (m = '+' || m = '-') = false := by
      unfold markerWsOnlyLine at h2
      dsimp only at h2
      simpa using h2
    rw [List.cons_append, List.nil_append,
      scanMods_cons_true_none (tryModMatch_no_marker hmk _),
      decide_eq_false (hnf m (by simp)), scanMods_nl_false]
    rfl
  | m :: a :: ls, R, hnf, h2 => by
    have hanf : ∀ c ∈ a :: ls, c ≠ '\n' := fun c hc => hnf c (List.mem_cons_of_mem m hc)
    have hshape : (m :: a :: ls) ++ '\n' :: R = m :: a :: (ls ++ '\n' :: R) := rfl
    by_cases hmk : (m = '+' || m = '-') = true
    · by_cases hws : pyIsSpace a = true
      · have hcontent := markerWsOnly_false_content hmk h2
        have hCnf : ∀ c ∈ (a :: ls).dropWhile pyIsSpace, c ≠ '\n' :=
          fun c hc => hanf c (dropWhile_sub hc)
        have hq : ∀ c ∈ (a :: ls).dropWhile pyIsSpace,
            (decide (c ≠ '(') && decide (c ≠ '\n')) = decide (c ≠ '(') := by
          intro c hc
          rw [decide_eq_true (hCnf c hc), Bool.and_true]
        have hA : (a :: (ls ++ '\n' :: R)).dropWhile pyIsSpace =
            (a :: ls).dropWhile pyIsSpace ++ '\n' :: R := by
          rw [show a :: (ls ++ '\n' :: R) = (a :: ls) ++ '\n' :: R from rfl]
          exact dropWhile_append_of_ne_nil hcontent _
        have hstopq : (fun c => decide (c ≠ '(') && decide (c ≠ '\n')) '\n' = false := by
          decide
        rcases hdq : ((a :: ls).dropWhile pyIsSpace).dropWhile
            (fun c => decide (c ≠ '(') && decide (c ≠ '\n')) with _ | ⟨d, ds⟩
        · have heq : tryModMatch (m :: a :: (ls ++ '\n' :: R)) =
              some (((a :: ls).dropWhile pyIsSpace).takeWhile (· ≠ '('), '\n' :: R) := by
            rw [tryModMatch_match hmk hws]
            dsimp only
            rw [hA, takeWhile_append_stop hstopq, dropWhile_append_stop hstopq, hdq,
              takeWhile_congr_mem hq]
            simp
          rw [hshape, scanMods_cons_true_some heq, scanMods_nl_false,
            rawLineEntry_some hmk hws hcontent]
        · have hd : d = '(' := by
            have hqd := dropWhile_head_not hdq
            have hdnf : d ≠ '\n' := hCnf d (dropWhile_sub (by rw [hdq]; simp))
            by_contra hne
            simp [hne, hdnf] at hqd
          subst hd
          have hdsnf : ∀ c ∈ ds, c ≠ '\n' :=
            fun c hc => hCnf c (dropWhile_sub (by rw [hdq]; simp [hc]))
          have heq : tryModMatch (m :: a :: (ls ++ '\n' :: R)) =
              some (((a :: ls).dropWhile pyIsSpace).takeWhile (· ≠ '('), ds ++ '\n' :: R) := by
            rw [tryModMatch_match hmk hws]
            dsimp only
            rw [hA, takeWhile_append_stop hstopq, dropWhile_append_stop hstopq, hdq,
              takeWhile_congr_mem hq]
            simp
          rw [hshape, scanMods_cons_true_some heq, scanMods_skip ds hdsnf,
            scanMods_nl_false, rawLineEntry_some hmk hws hcontent]
      · have hws' : pyIsSpace a = false := by
          cases hb : pyIsSpace a with
          | true => exact absurd hb hws
          | false => rfl
        rw [hshape, scanMods_cons_true_none (tryModMatch_no_ws hws' _),
          decide_eq_false (hnf m (by simp)),
          show a :: (ls ++ '\n' :: R) = (a :: ls) ++ '\n' :: R from rfl,
          scanMods_skip (a :: ls) hanf, scanMods_nl_false,
          rawLineEntry_none_of_no_ws hws' ls]
    · have hmk' : (m = '+' || m = '-') = false := by
        cases hb : (m = '+' || m = '-') with
        | true => exact absurd hb hmk
        | false => rfl
      rw [hshape, scanMods_cons_true_none (tryModMatch_no_marker hmk' _),
        decide_eq_false (hnf m (by simp)),
        show a :: (ls ++ '\n' :: R) = (a :: ls) ++ '\n' :: R from rfl,
        scanMods_skip (a :: ls) hanf, scanMods_nl_false,
        rawLineEntry_none_of_no_marker hmk' (a :: ls)]

theorem scan_line_last : ∀ (L : PyStr), (∀ c ∈ L, c ≠ '\n') →
    markerWsOnlyLine L = false →
    scanMods L true =
      (match rawLineEntry L with
       | some g => [g]
       | none => [])
  | [], _, _ => by
    rw [scanMods]
    rfl
  | [m], hnf, h2 => by
    have hmk : (m = '+' || m = '-') = false := by
      unfold markerWsOnlyLine at h2
      dsimp only at h2
      simpa using h2
    rw [show ([m] : PyStr) = m :: [] from rfl,
      scanMods_cons_true_none (show tryModMatch [m] = none from rfl), scanMods]
    rfl
  | m :: a :: ls, hnf, h2 => by
    have hanf : ∀ c ∈ a :: ls, c ≠ '\n' := fun c hc => hnf c (List.mem_cons_of_mem m hc)
    by_cases hmk : (m = '+' || m = '-') = true
    · by_cases hws : pyIsSpace a = true
      · have hcontent := markerWsOnly_false_content hmk h2
        have hCnf : ∀ c ∈ (a :: ls).dropWhile pyIsSpace, c ≠ '\n' :=
          fun c hc => hanf c (dropWhile_sub hc)
        have hq : ∀ c ∈ (a :: ls).dropWhile pyIsSpace,
            (decide (c ≠ '(') && decide (c ≠ '\n')) = decide (c ≠ '(') := by
          intro c hc
          rw [decide_eq_true (hCnf c hc), Bool.and_true]
        rcases hdq : ((a :: ls).dropWhile pyIsSpace).dropWhile
            (fun c => decide (c ≠ '(') && decide (c ≠ '\n')) with _ | ⟨d, ds⟩
        · have heq : tryModMatch (m :: a :: ls) =
              some (((a :: ls).dropWhile pyIsSpace).takeWhile (· ≠ '('), []) := by
            rw [tryModMatch_match hmk hws]
            dsimp only
            rw [hdq, takeWhile_congr_mem hq]
            simp
          rw [scanMods_cons_true_some heq, rawLineEntry_some hmk hws hcontent, scanMods]
        · have hd : d = '(' := by
            have hqd := dropWhile_head_not hdq
            have hdnf : d ≠ '\n' := hCnf d (dropWhile_sub (by rw [hdq]; simp))
            by_contra hne
            simp [hne, hdnf] at hqd
          subst hd
          have hdsnf : ∀ c ∈ ds, c ≠ '\n' :=
            fun c hc => hCnf c (dropWhile_sub (by rw [hdq]; simp [hc]))
          have heq : tryModMatch (m :: a :: ls) =
              some (((a :: ls).dropWhile pyIsSpace).takeWhile (· ≠ '('), ds) := by
            rw [tryModMatch_match hmk hws]
            dsimp only
            rw [hdq, takeWhile_congr_mem hq]
            simp
          rw [scanMods_cons_true_some heq,
            show ds = ds ++ ([] : PyStr) from (List.append_nil ds).symm,
            scanMods_skip ds hdsnf, rawLineEntry_some hmk hws hcontent, scanMods]
      · have hws' : pyIsSpace a = false := by
          cases hb : pyIsSpace a with
          | true => exact absurd hb hws
          | false => rfl
        rw [scanMods_cons_true_none (tryModMatch_no_ws hws' _),
          decide_eq_false (hnf m (by simp)), rawLineEntry_none_of_no_ws hws' ls,
          show a :: ls = (a :: ls) ++ ([] : PyStr) from (List.append_nil _).symm,
          scanMods_skip (a :: ls) hanf, scanMods]
    · have hmk' : (m = '+' || m = '-') = false := by
        cases hb : (m = '+' || m = '-') with
        | true => exact absurd hb hmk
        | false => rfl
      rw [scanMods_cons_true_none (tryModMatch_no_marker hmk' _),
        decide_eq_false (hnf m (by simp)), rawLineEntry_none_of_no_marker hmk' (a :: ls),
        show a :: ls = (a :: ls) ++ ([] : PyStr) from (List.append_nil _).symm,
        scanMods_skip (a :: ls) hanf, scanMods]

/-- The `re.findall` scan over a block without marker-plus-whitespace-only
lines is exactly per-line processing of the newline-split block. -/
theorem scanMods_perLine (block : PyStr)
    (h2 : ∀ l ∈ splitNl block, markerWsOnlyLine l = false) :
    scanMods block true = (splitNl block).filterMap rawLineEntry := by
  rcases hd : block.dropWhile (fun c => c ≠ '\n') with _ | ⟨d, R⟩
  · have hnf : ∀ c ∈ block, c ≠ '\n' := by
      intro c hc
      have hall := List.dropWhile_eq_nil_iff.1 hd
      simpa using hall c hc
    rw [splitNl_no_nl hnf,
      scan_line_last block hnf (h2 block (by rw [splitNl_no_nl hnf]; simp))]
    cases hr : rawLineEntry block <;> simp [hr, List.filterMap_cons]
  · have hdn : d = '\n' := by
      have hh := dropWhile_head_not hd
      simpa using hh
    subst hdn
    have hsplit : block = block.takeWhile (fun c => c ≠ '\n') ++ '\n' :: R := by
      conv_lhs => rw [← List.takeWhile_append_dropWhile
        (p := fun c => decide (c ≠ '\n')) (l := block)]
      rw [hd]
    have hLnf : ∀ c ∈ block.takeWhile (fun c => c ≠ '\n'), c ≠ '\n' := by
      intro c hc
      simpa using List.mem_takeWhile_imp hc
    have hsp : splitNl block =
        block.takeWhile (fun c => c ≠ '\n') :: splitNl R := by
      conv_lhs => rw [hsplit]
      exact splitNl_append _ _ hLnf
    have hmem : block.takeWhile (fun c => c ≠ '\n') ∈ splitNl block := by
      rw [hsp]
      simp
    have hL2 := h2 _ hmem
    have hR2 : ∀ l ∈ splitNl R, markerWsOnlyLine l = false := by
      intro l hl
      refine h2 l ?_
      rw [hsp]
      exact List.mem_cons_of_mem _ hl
    have ihR := scanMods_perLine R hR2
    rw [hsp, List.filterMap_cons]
    conv_lhs => rw [hsplit]
    rw [scan_line_cons _ R hLnf hL2, ihR]
    cases hr : rawLineEntry (block.takeWhile (fun c => c ≠ '\n')) <;> simp [hr]
  termination_by block.length
  decreasing_by
    rw [hsplit]
    simp only [List.length_append, List.length_cons]
    omega

/-- Lifting the per-line scan result through `strip` and the emptiness
filter. -/
theorem stripFilter_filterMap : ∀ (L : List PyStr),
    (((L.filterMap rawLineEntry).map pyStrip).filter (fun m => !m.isEmpty)) =
      L.filterMap amendedLineEntry
  | [] => rfl
  | l :: ls => by
    rw [List.filterMap_cons, List.filterMap_cons]
    cases hr : rawLineEntry l with
    | none =>
      rw [show amendedLineEntry l = none from by simp [amendedLineEntry, hr]]
      exact stripFilter_filterMap ls
    | some g =>
      rw [List.map_cons, List.filter_cons]
      cases hse : (pyStrip g).isEmpty with
      | true =>
        have hse' : pyStrip g = [] := List.isEmpty_iff.1 hse
        rw [show amendedLineEntry l = none from by simp [amendedLineEntry, hr, hse, hse']]
        simpa [hse'] using stripFilter_filterMap ls
      | false =>
        have hse' : ¬pyStrip g = [] := by
          intro hh
          rw [hh] at hse
          simp at hse
        rw [show amendedLineEntry l = some (pyStrip g) from by
          simp [amendedLineEntry, hr, hse, hse']]
        simpa [hse'] using stripFilter_filterMap ls

/-- The code's module-name extraction agrees with the amended per-line
description on blocks without marker-plus-whitespace-only lines. -/
theorem modNamesOf_eq_amended (block : PyStr)
    (h2 : ∀ l ∈ splitNl block, markerWsOnlyLine l = false) :
    modNamesOf block = modNamesAmended block := by
  unfold modNamesOf modNamesAmended
  rw [scanMods_perLine block h2]
  exact stripFilter_filterMap (splitNl block)


/-!
## The claims
-/

set_option maxRecDepth 100000

/-- C1: every card of every page produced by `build_pages` has serialized
size (`embed_size`, the length of the JSON dump of its dict form) at most
`CARD_BYTE_LIMIT = 6000`. -/
theorem claim_C1 (e s m : PyStr) :
    ∀ page ∈ build_pages e s m, ∀ emb ∈ page, embed_size emb ≤ CARD_BYTE_LIMIT := by
  intro page hp emb he
  rcases build_pages_mem_embeds hp he with rfl | h | h | h
  · decide
  · exact (build_embeds_props (by decide) (by decide) (by decide) _ e emb h).1
  · exact (build_embeds_props (by decide) (by decide) (by decide) _ s emb h).1
  · exact (build_embeds_props (by decide) (by decide) (by decide) _ m emb h).1

/-- Witness for C1 at the all-empty input. -/
theorem claim_C1_witness : embed_size noDataEmbed ≤ CARD_BYTE_LIMIT :=
  claim_C1 [] [] [] [noDataEmbed] (by decide) noDataEmbed (by decide)

/-- C2: every card produced by `build_embeds_for_section` in the reference
configuration has at most `MAX_FIELDS_PER_CARD` fields, and every field's
text including its code fence has length at most `FIELD_CHAR_LIMIT`. -/
theorem claim_C2 (name content : PyStr) :
    ∀ emb ∈ build_embeds_for_section name content 80 900 5,
      emb.fields.length ≤ MAX_FIELDS_PER_CARD ∧
      ∀ v ∈ emb.fields, v.length ≤ FIELD_CHAR_LIMIT := by
  intro emb he
  have h := build_embeds_props (by decide) (by decide) (by decide) name content emb he
  exact ⟨h.2.1, fun v hv => le_trans (h.2.2 v hv) (by decide)⟩

/-- Witness for C2 on the body `"hello"`. -/
theorem claim_C2_witness :
    ((build_embeds_for_section (pystr "Exception") (pystr "hello") 80 900 5).getD 0
        noDataEmbed).fields.length ≤ MAX_FIELDS_PER_CARD ∧
    ∀ v ∈ ((build_embeds_for_section (pystr "Exception") (pystr "hello") 80 900 5).getD 0
        noDataEmbed).fields, v.length ≤ FIELD_CHAR_LIMIT :=
  claim_C2 (pystr "Exception") (pystr "hello") _ (by decide)

/-- C3: once the pattern matches (the label found as a marker-prefixed
header, `searchLabel` returning the capture start), the captured body has
no internal stop position — the stop lookahead (newline, marker, heading)
is false at every interior offset — and the body ends only at a genuine
stop or at the end of input.  In particular a label appearing inline in
the body does not truncate it. -/
theorem claim_C3 (label doc t : PyStr) (h : searchLabel label doc = some t) :
    extractBody label doc = pyStrip (bodyFrom t) ∧
    (∀ i, 1 ≤ i → i < (bodyFrom t).length → stopLookahead (List.drop i t) = false) ∧
    (List.drop (bodyFrom t).length t = [] ∨
      stopLookahead (List.drop (bodyFrom t).length t) = true) :=
  ⟨extractBody_of_search h,
   fun i h1 h2 => bodyFrom_no_internal_stop t i h1 h2,
   bodyFrom_ends_at_stop t (searchLabel_some_ne_nil h)⟩

/-- Witness for C3: a document whose Exception body mentions
"Installed Modules" inline; the body is not cut at the inline mention. -/
theorem claim_C3_witness :
    extractBody (pystr "Exception")
        (pystr "+ Exception\nsee Installed Modules list\n+ Installed Modules\n+ Mod (x)")
      = pyStrip (bodyFrom (pystr "see Installed Modules list\n+ Installed Modules\n+ Mod (x)")) :=
  (claim_C3 (pystr "Exception")
    (pystr "+ Exception\nsee Installed Modules list\n+ Installed Modules\n+ Mod (x)")
    (pystr "see Installed Modules list\n+ Installed Modules\n+ Mod (x)") (by decide)).1

/-- C9: a section whose label has no match is reported as the empty
string by `fetch_webpage_sections`, never as an absent value, for each of
the three sections. -/
theorem claim_C9 (doc : PyStr) :
    (searchLabel (pystr "Exception") doc = none →
      (fetch_webpage_sections doc).exception = []) ∧
    (searchLabel (pystr "Enhanced Stacktrace") doc = none →
      (fetch_webpage_sections doc).enhanced_stacktrace = []) ∧
    (searchLabel (pystr "Installed Modules") doc = none →
      (fetch_webpage_sections doc).installed_modules = []) := by
  refine ⟨fun h => ?_, fun h => ?_, fun h => ?_⟩
  · show extractBody (pystr "Exception") doc = []
    exact extractBody_of_none h
  · show extractBody (pystr "Enhanced Stacktrace") doc = []
    exact extractBody_of_none h
  · show (match searchLabel (pystr "Installed Modules") doc with
      | none => ([] : PyStr)
      | some tail =>
        let modulesBlock := bodyFrom tail
        let modNames := modNamesOf modulesBlock
        if modNames.isEmpty then [] else joinNL modNames) = []
    rw [h]

/-- Witness for C9 on a document with none of the labels. -/
theorem claim_C9_witness : (fetch_webpage_sections (pystr "nothing here")).exception = [] :=
  (claim_C9 (pystr "nothing here")).1 (by decide)

/-- C4 counterexample: when all three sections are empty the single
placeholder card's title is "No Crash Report Data Found", not the claimed
"No Data Found". -/
theorem claim_C4_counterexample :
    build_pages [] [] [] = [[noDataEmbed]] ∧
    noDataEmbed.title = some (pystr "No Crash Report Data Found") ∧
    pystr "No Crash Report Data Found" ≠ pystr "No Data Found" :=
  ⟨by decide, rfl, by decide⟩

/-- C4 (amended): when all three section texts strip to nothing,
`build_pages` returns exactly one page holding exactly one placeholder
card, whose title is "No Crash Report Data Found". -/
theorem claim_C4 {e s m : PyStr} (he : pyStrip e = []) (hs : pyStrip s = [])
    (hm : pyStrip m = []) :
    build_pages e s m = [[noDataEmbed]] ∧
    noDataEmbed.title = some (pystr "No Crash Report Data Found") :=
  ⟨build_pages_all_empty he hs hm, rfl⟩

/-- Witness for C4 at the empty inputs. -/
theorem claim_C4_witness :
    build_pages [] [] [] = [[noDataEmbed]] ∧
    noDataEmbed.title = some (pystr "No Crash Report Data Found") :=
  claim_C4 (by decide) (by decide) (by decide)

/-- C5 counterexample: the line "+Harmony (x)" (marker not followed by
whitespace) starts with a marker character and per the claim's words
should yield "Harmony", but the code's regex requires whitespace after
the marker and yields nothing. -/
theorem claim_C5_counterexample :
    modNamesOf (pystr "+Harmony (x)") = [] ∧
    modNamesClaimPerLine (pystr "+Harmony (x)") = [pystr "Harmony"] := by
  constructor
  · rw [modNamesOf_eq_amended (pystr "+Harmony (x)") (by decide)]
    decide
  · decide

/-- C5 (amended): the scenario block parses to ["Harmony", "ButterLib"];
in general, on blocks with no marker-plus-whitespace-only line, each line
consisting of a marker character, at least one whitespace character and
some non-whitespace content yields the content cut at the first `(` and
trimmed (dropped when it trims to nothing), in order; other lines are
ignored. -/
theorem claim_C5 :
    modNamesOf (pystr "+ Harmony (Bannerlord.Harmony, v2.3.3.207)\n+ ButterLib (Bannerlord.ButterLib, v2.9.18.0)")
      = [pystr "Harmony", pystr "ButterLib"] ∧
    ∀ block : PyStr, (∀ l ∈ splitNl block, markerWsOnlyLine l = false) →
      modNamesOf block = modNamesAmended block := by
  constructor
  · rw [modNamesOf_eq_amended _ (by decide)]
    decide
  · exact fun block h => modNamesOf_eq_amended block h

/-- Witness for C5 on a small two-line block. -/
theorem claim_C5_witness :
    modNamesOf (pystr "+ Alpha (x)\n- Beta") = modNamesAmended (pystr "+ Alpha (x)\n- Beta") :=
  claim_C5.2 _ (by decide)

/-- C6 counterexample: `c6body` is a single unbroken line whose fenced
form serializes past `CARD_BYTE_LIMIT`, yet pagination does not drop it:
the output consists of two cards whose fields carry the hard-wrapped
content. -/
theorem claim_C6_counterexample :
    (∀ c ∈ c6body, pyIsLineBreak c = false) ∧
    CARD_BYTE_LIMIT < jsonStrLen (fenceWrap c6body) ∧
    (build_embeds_for_section (pystr "Exception") c6body 80 900 5).map
        (fun e => e.fields.map (fun v => v.length)) = [[896], [228]] := by
  refine ⟨?_, by decide, by decide⟩
  intro c hc
  rw [List.eq_of_mem_replicate hc]
  decide

/-- C6 (amended): an oversized single unbroken line is first hard-wrapped
by `safe_line_split` into pieces of at most `max_line_len` characters and
those pieces are packed into fielded cards; nothing is dropped and the
content survives in the fenced field values. -/
theorem claim_C6 :
    (∀ t : PyStr, ∀ l ∈ safe_line_split t 80, l.length ≤ 80) ∧
    safe_line_split c6body 80 =
      List.replicate 13 (List.replicate 80 eAcute) ++ [List.replicate 60 eAcute] ∧
    (build_embeds_for_section (pystr "Exception") c6body 80 900 5).map
        (fun e => (e.title, e.fields)) =
      [(some (pystr "Exception"),
        [fenceWrap (joinNL (List.replicate 11 (List.replicate 80 eAcute)))]),
       (none,
        [fenceWrap (joinNL (List.replicate 2 (List.replicate 80 eAcute) ++
          [List.replicate 60 eAcute]))])] :=
  ⟨fun t => safe_line_split_short (by decide) t, by decide, by decide⟩

/-- Witness for C6 on a short line. -/
theorem claim_C6_witness : (pystr "ab").length ≤ 80 :=
  claim_C6.1 (pystr "ab") (pystr "ab") (by decide)

/-- C7: `chunk_embeds` partitions any card list into pages of at most
`MAX_CARDS_PER_PAGE` cards whose concatenation is the input, with every
page but possibly the last holding exactly `MAX_CARDS_PER_PAGE` cards;
and when any section produced cards, the pages of `build_pages`
concatenate to the section outputs in the fixed order Exception,
Enhanced Stacktrace, Installed Modules. -/
theorem claim_C7 (embeds : List Embed) (e s m : PyStr) :
    (chunk_embeds embeds MAX_CARDS_PER_PAGE).flatten = embeds ∧
    (∀ p ∈ chunk_embeds embeds MAX_CARDS_PER_PAGE, p.length ≤ MAX_CARDS_PER_PAGE) ∧
    (∀ i, i + 1 < (chunk_embeds embeds MAX_CARDS_PER_PAGE).length →
      ((chunk_embeds embeds MAX_CARDS_PER_PAGE).getD i []).length = MAX_CARDS_PER_PAGE) ∧
    ((build_embeds_for_section (pystr "Exception") e 80 900 5 ++
      build_embeds_for_section (pystr "Enhanced Stacktrace") s 80 900 5 ++
      build_embeds_for_section (pystr "Installed Modules") m 80 900 5) ≠ [] →
      (build_pages e s m).flatten =
        build_embeds_for_section (pystr "Exception") e 80 900 5 ++
        build_embeds_for_section (pystr "Enhanced Stacktrace") s 80 900 5 ++
        build_embeds_for_section (pystr "Installed Modules") m 80 900 5) := by
  refine ⟨chunk_embeds_flatten 9 embeds, chunk_embeds_page_le 9 embeds,
    fun i hi => chunk_embeds_full_pages 9 embeds i hi, fun hne => ?_⟩
  unfold build_pages
  dsimp only
  rw [if_neg (fun h => hne (List.isEmpty_iff.1 h))]
  exact chunk_embeds_flatten 9 _

/-- Witness for C7 on eleven cards: the first page is full. -/
theorem claim_C7_witness :
    ((chunk_embeds (List.replicate 11 noDataEmbed) MAX_CARDS_PER_PAGE).getD 0 []).length
      = MAX_CARDS_PER_PAGE :=
  (claim_C7 (List.replicate 11 noDataEmbed) [] [] []).2.2.1 0 (by decide)

/-- C8: on `c8input` the Exception section emits exactly one card and
that card has no title, contradicting the claim that the first card of a
section carries the section's name. -/
theorem claim_C8 :
    (build_embeds_for_section (pystr "Exception") c8input 80 900 5).map Embed.title
      = [none] := by decide

/-- C10: triple backticks are removed from the content before packing
(`replaceTriple` output never contains one), and every field value
emitted in the reference configuration is exactly a code fence around a
text with no triple backtick. -/
theorem claim_C10 (name content extra : PyStr) :
    noTriple (replaceTriple extra) = true ∧
    ∀ emb ∈ build_embeds_for_section name content 80 900 5,
      ∀ v ∈ emb.fields, fencedOK v :=
  ⟨(replaceTriple_spec extra).1,
   fun emb he v hv => build_embeds_fenced name content emb he v hv⟩

/-- Witness for C10 on the body `"hi"`. -/
theorem claim_C10_witness : fencedOK (fenceWrap (pystr "hi")) :=
  (claim_C10 (pystr "Exception") (pystr "hi") (pystr "hi")).2
    ((build_embeds_for_section (pystr "Exception") (pystr "hi") 80 900 5).getD 0 noDataEmbed)
    (by decide) (fenceWrap (pystr "hi")) (by decide)
